import Mathlib

/-!
Verification of the FIRST/FOLLOW calculator in `FF.py`.

The Python class `FirstFollowCalculator` is embedded shallowly:

* a `Grammar` packages the parsed state of the calculator: the production
  dictionary (`self.grammar`, an association list keyed by non-terminal),
  the non-terminal set (`self.non_terminals`, kept as a list), and the
  start symbol (`self.start_symbol`);
* `self.first_sets` (the FIRST memo) together with the printed diagnostics
  becomes the first-order record `FirstState`;
* `self.follow_sets` (a `defaultdict(set)`) becomes a total function
  `Symbol → Finset Symbol` defaulting to `∅`;
* the recursive `compute_first` is fuel-indexed (the Python recursion can
  diverge on mutual left recursion, which the fuel models as `none`), and
  the `while changed` loop of `compute_follow` is likewise fuel-indexed.
-/

namespace FF

abbrev Symbol := String

/-- `self.EPSILON = "ε"`. -/
def EPSILON : Symbol := "ε"

/-- `self.END_MARKER = "$"`. -/
def END_MARKER : Symbol := "$"

/-- Lookup in an association list, mirroring Python `dict` access. -/
def lookupA {β : Type} : List (Symbol × β) → Symbol → Option β
  | [], _ => none
  | (k, v) :: rest, s => if s = k then some v else lookupA rest s

/-- Boolean membership in a symbol list, mirroring the Python `in` test on
`self.non_terminals` (kernel-reducible, unlike the `List.Mem` instance). -/
def memS (s : Symbol) : List Symbol → Bool
  | [] => false
  | x :: rest => if s = x then true else memS s rest


/-- Parsed grammar: `self.grammar` (association list of productions),
`self.non_terminals` and `self.start_symbol` of `FirstFollowCalculator`. -/
structure Grammar where
  prods : List (Symbol × List (List Symbol))
  nts : List Symbol
  start : Symbol
deriving DecidableEq

/-- All symbols appearing in any production body: the nested loops of
`parse_grammar` building `all_symbols` (lines 56-60 of `FF.py`). -/
def allSymbols (prods : List (Symbol × List (List Symbol))) : Finset Symbol :=
  prods.foldl
    (fun acc entry =>
      entry.2.foldl (fun acc rule => rule.foldl (fun acc sym => insert sym acc) acc) acc)
    ∅

/-- Terminal detection of `parse_grammar` (lines 62-63 of `FF.py`):
`{sym for sym in all_symbols if sym not in non_terminals and sym != EPSILON}`. -/
def detectTerminals (prods : List (Symbol × List (List Symbol))) (nts : List Symbol) :
    Finset Symbol :=
  (allSymbols prods).filter (fun sym => memS sym nts = false ∧ sym ≠ EPSILON)

/-- `self.terminals` as derived for a parsed grammar. -/
def terminalsOf (g : Grammar) : Finset Symbol :=
  detectTerminals g.prods g.nts

/-- The diagnostic printed by `compute_first` for an undefined symbol. -/
def undefinedMsg (s : Symbol) : String :=
  "Error: Símbolo '" ++ s ++ "' no definido en la gramática"

/-- The mutable state touched by `compute_first`: the memo `self.first_sets`
plus the diagnostics the calculator prints. -/
structure FirstState where
  first_sets : List (Symbol × Finset Symbol)
  diags : List String
deriving DecidableEq

/-- The empty initial state of a fresh `FirstFollowCalculator`. -/
def initFS : FirstState := ⟨[], []⟩

mutual

/-- `compute_first` (lines 73-125 of `FF.py`), fuel-indexed.  Branches in
source order: memo hit；terminal or epsilon；undefined symbol (diagnostic,
memoize `∅`)；otherwise scan every production and memoize the result. -/
def compute_first (g : Grammar) : Nat → FirstState → Symbol → Option (FirstState × Finset Symbol)
  | 0, _, _ => none
  | Nat.succ fuel, st, symbol =>
    match lookupA st.first_sets symbol with
    | some v => some (st, v)
    | none =>
      if symbol ∈ terminalsOf g ∨ symbol = EPSILON then
        some ({ st with first_sets := (symbol, {symbol}) :: st.first_sets }, {symbol})
      else if (lookupA g.prods symbol).isNone then
        some ({ first_sets := (symbol, ∅) :: st.first_sets,
                diags := undefinedMsg symbol :: st.diags }, ∅)
      else
        match foldProds g fuel st symbol ((lookupA g.prods symbol).getD []) ∅ with
        | none => none
        | some (st', result) =>
          some ({ st' with first_sets := (symbol, result) :: st'.first_sets }, result)

/-- The `for production in self.grammar[symbol]` loop of `compute_first`
(lines 93-122): an empty production adds `EPSILON`, otherwise the body is
scanned and `EPSILON` is added when `add_epsilon` survives. -/
def foldProds (g : Grammar) :
    Nat → FirstState → Symbol → List (List Symbol) → Finset Symbol →
      Option (FirstState × Finset Symbol)
  | 0, _, _, _, _ => none
  | Nat.succ _, st, _, [], result => some (st, result)
  | Nat.succ fuel, st, symbol, production :: rest, result =>
    if production = [] then
      foldProds g fuel st symbol rest (insert EPSILON result)
    else
      match scanSyms g fuel st symbol production result with
      | none => none
      | some (st', result', addEps) =>
        foldProds g fuel st' symbol rest (if addEps then insert EPSILON result' else result')

/-- The `for sym in production` loop of `compute_first` (lines 102-118).
The returned `Bool` is the surviving `add_epsilon` flag: it stays `true`
both when the scan reaches the end and when the self-recursion guard
`if sym == symbol: break` fires. -/
def scanSyms (g : Grammar) :
    Nat → FirstState → Symbol → List Symbol → Finset Symbol →
      Option (FirstState × Finset Symbol × Bool)
  | 0, _, _, _, _ => none
  | Nat.succ _, st, _, [], result => some (st, result, true)
  | Nat.succ fuel, st, symbol, sym :: rest, result =>
    if sym = symbol then
      some (st, result, true)
    else
      match compute_first g fuel st sym with
      | none => none
      | some (st', firstOfSym) =>
        let result' := result ∪ firstOfSym.erase EPSILON
        if EPSILON ∈ firstOfSym then
          scanSyms g fuel st' symbol rest result'
        else
          some (st', result', false)

end

/-- The `for i in range(start, len(sequence))` loop of `first_of_sequence`
(lines 132-143), over the remaining suffix.  Returns the accumulated set
and the surviving `add_epsilon` flag. -/
def firstSeqAux (g : Grammar) (F : Nat) :
    FirstState → List Symbol → Finset Symbol → Option (FirstState × Finset Symbol × Bool)
  | st, [], result => some (st, result, true)
  | st, sym :: rest, result =>
    match compute_first g F st sym with
    | none => none
    | some (st', firstOfSym) =>
      let result' := result ∪ firstOfSym.erase EPSILON
      if EPSILON ∈ firstOfSym then
        firstSeqAux g F st' rest result'
      else
        some (st', result', false)

/-- `first_of_sequence` (lines 127-148 of `FF.py`). -/
def first_of_sequence (g : Grammar) (F : Nat) (st : FirstState)
    (sequence : List Symbol) (start : Nat) : Option (FirstState × Finset Symbol) :=
  match firstSeqAux g F st (sequence.drop start) ∅ with
  | none => none
  | some (st', result, addEps) =>
    some (st', if addEps then insert EPSILON result else result)

/-- `self.follow_sets`: a `defaultdict(set)`, i.e. a total map defaulting
to the empty set. -/
abbrev FollowSets := Symbol → Finset Symbol

/-- Rule 2 of `compute_follow` followed by the conditional rule 3
(lines 170-180 of `FF.py`): add `first_beta - {EPSILON}` to
`follow_sets[symbol]`, and when `EPSILON ∈ first_beta` also union in the
current `follow_sets[lhs]`. -/
def ruleTwoThree (fs : FollowSets) (lhs symbol : Symbol) (firstBeta : Finset Symbol) :
    FollowSets :=
  let fs1 := Function.update fs symbol (fs symbol ∪ firstBeta.erase EPSILON)
  if EPSILON ∈ firstBeta then
    Function.update fs1 symbol (fs1 symbol ∪ fs1 lhs)
  else
    fs1

/-- The two length comparisons around rule 2/rule 3 (lines 172-185):
`old_follow_size < len` after the rule-3 union, and `old_size < len`
after the whole step. -/
def ruleTwoThreeChanged (fs : FollowSets) (lhs symbol : Symbol) (firstBeta : Finset Symbol) :
    Bool :=
  let fs1 := Function.update fs symbol (fs symbol ∪ firstBeta.erase EPSILON)
  let fs2 := ruleTwoThree fs lhs symbol firstBeta
  (if EPSILON ∈ firstBeta then decide ((fs1 symbol).card < (fs2 symbol).card) else false)
    || decide ((fs symbol).card < (fs2 symbol).card)

/-- Rule 3 for a trailing non-terminal (line 189 of `FF.py`):
`follow_sets[symbol].update(follow_sets[lhs])`. -/
def ruleThree (fs : FollowSets) (lhs symbol : Symbol) : FollowSets :=
  Function.update fs symbol (fs symbol ∪ fs lhs)

/-- The length comparison around the trailing rule 3 (lines 188-190). -/
def ruleThreeChanged (fs : FollowSets) (lhs symbol : Symbol) : Bool :=
  decide ((fs symbol).card < (ruleThree fs lhs symbol symbol).card)

/-- The body of `for i, symbol in enumerate(prod)` in `compute_follow`
(lines 162-191), over the `enumerate` pairs of one production.  Rule 2
adds `FIRST(β) - {EPSILON}`, rule 3 unions in `FOLLOW(lhs)`; `changed` is
set exactly when a length comparison in the source detects growth. -/
def followPos (g : Grammar) (F : Nat) (lhs : Symbol) (prod : List Symbol) :
    FirstState → FollowSets → List (Nat × Symbol) → Bool →
      Option (FirstState × FollowSets × Bool)
  | st, fs, [], changed => some (st, fs, changed)
  | st, fs, (i, symbol) :: rest, changed =>
    if memS symbol g.nts = false then
      followPos g F lhs prod st fs rest changed
    else if i + 1 < prod.length then
      match first_of_sequence g F st prod (i + 1) with
      | none => none
      | some (st', firstBeta) =>
        followPos g F lhs prod st' (ruleTwoThree fs lhs symbol firstBeta) rest
          (changed || ruleTwoThreeChanged fs lhs symbol firstBeta)
    else
      followPos g F lhs prod st (ruleThree fs lhs symbol) rest
        (changed || ruleThreeChanged fs lhs symbol)

/-- The `for prod in productions` loop of `compute_follow` (line 161). -/
def followProds (g : Grammar) (F : Nat) (lhs : Symbol) :
    FirstState → FollowSets → List (List Symbol) → Bool →
      Option (FirstState × FollowSets × Bool)
  | st, fs, [], changed => some (st, fs, changed)
  | st, fs, prod :: rest, changed =>
    match followPos g F lhs prod st fs prod.enum changed with
    | none => none
    | some (st', fs', changed') => followProds g F lhs st' fs' rest changed'

/-- One full pass of `for lhs, productions in self.grammar.items()`
(line 160). -/
def followPass (g : Grammar) (F : Nat) :
    FirstState → FollowSets → List (Symbol × List (List Symbol)) → Bool →
      Option (FirstState × FollowSets × Bool)
  | st, fs, [], changed => some (st, fs, changed)
  | st, fs, (lhs, productions) :: rest, changed =>
    match followProds g F lhs st fs productions changed with
    | none => none
    | some (st', fs', changed') => followPass g F st' fs' rest changed'

/-- The `while changed` loop of `compute_follow` (lines 155-191),
fuel-indexed: each iteration resets `changed = False`, runs a full pass,
and stops when the pass reports no growth. -/
def followLoop (g : Grammar) (F : Nat) :
    Nat → FirstState → FollowSets → Option (FirstState × FollowSets)
  | 0, _, _ => none
  | Nat.succ n, st, fs =>
    match followPass g F st fs g.prods false with
    | none => none
    | some (st', fs', changed) =>
      if changed then followLoop g F n st' fs' else some (st', fs')

/-- `compute_follow` (lines 150-191 of `FF.py`): seed
`follow_sets[start_symbol].add(END_MARKER)`, then iterate until stable. -/
def compute_follow (g : Grammar) (F N : Nat) (st : FirstState) (fs : FollowSets) :
    Option (FirstState × FollowSets) :=
  followLoop g F N st (Function.update fs g.start (insert END_MARKER (fs g.start)))

/-- The `for nt in self.non_terminals: self.compute_first(nt)` phase of
`calculate_all` (lines 196-197). -/
def firstPhase (g : Grammar) (F : Nat) : FirstState → List Symbol → Option FirstState
  | st, [] => some st
  | st, nt :: rest =>
    match compute_first g F st nt with
    | none => none
    | some (st', _) => firstPhase g F st' rest

/-- `calculate_all` (lines 193-200 of `FF.py`). -/
def calculate_all (g : Grammar) (F N : Nat) (st : FirstState) (fs : FollowSets) :
    Option (FirstState × FollowSets) :=
  match firstPhase g F st g.nts with
  | none => none
  | some st1 => compute_follow g F N st1 fs

/-- The everywhere-empty follow map (a fresh `defaultdict(set)`). -/
def emptyFollow : FollowSets := fun _ => ∅

/-- The canonical expression grammar of the spec:
`E -> T E'`, `E' -> + T E' | ε`, `T -> F T'`, `T' -> * F T' | ε`,
`F -> ( E ) | id`, as `parse_grammar` builds it (the `ε` alternative is the
one-symbol production `["ε"]`). -/
def gCanon : Grammar :=
  { prods :=
      [ ("E", [["T", "E'"]])
      , ("E'", [["+", "T", "E'"], ["ε"]])
      , ("T", [["F", "T'"]])
      , ("T'", [["*", "F", "T'"], ["ε"]])
      , ("F", [["(", "E", ")"], ["id"]]) ]
  , nts := ["E", "E'", "T", "T'", "F"]
  , start := "E" }

/-- Left-recursive grammar `A -> A a`: the self-recursion guard stops the
scan of its only production. -/
def gLrec : Grammar := ⟨[("A", [["A", "a"]])], ["A"], "A"⟩

/-- A trivial grammar with the single production `S -> a`. -/
def gTriv : Grammar := ⟨[("S", [["a"]])], ["S"], "S"⟩

/-- Grammar with an unreferenced non-terminal `X` (a left-hand side that
occurs in no production body). -/
def gUnref : Grammar := ⟨[("S", [["a"]]), ("X", [["b"]])], ["S", "X"], "S"⟩

/-- The claim predicate of C6: every symbol of the suffix, computed left to
right with the state threaded exactly as the code threads it, has `EPSILON`
in its FIRST set. -/
def SuffixAllEps (g : Grammar) (F : Nat) : FirstState → List Symbol → Prop
  | _, [] => True
  | st, sym :: rest =>
    ∃ st' S, compute_first g F st sym = some (st', S) ∧ EPSILON ∈ S ∧ SuffixAllEps g F st' rest

/-- Memo extension: every binding of the first state survives into the
second.  `compute_first` only conses bindings for keys that were absent,
so runs of the calculator only extend the memo in this sense. -/
def MemoExt (st st' : FirstState) : Prop :=
  ∀ k w, lookupA st.first_sets k = some w → lookupA st'.first_sets k = some w

/-- All memoized FIRST sets are made of terminals and `EPSILON`. -/
def GoodMemo (g : Grammar) (st : FirstState) : Prop :=
  ∀ k v, lookupA st.first_sets k = some v → v ⊆ terminalsOf g ∪ {EPSILON}

/-- Total size of the FOLLOW sets over the non-terminal set: the measure
that grows strictly on every changed pass of the fixpoint loop. -/
def Mfs (g : Grammar) (fs : FollowSets) : Nat :=
  Finset.sum g.nts.toFinset (fun A => (fs A).card)

end FF

namespace FF


theorem memS_iff {s : Symbol} : ∀ l : List Symbol, memS s l = true ↔ s ∈ l
  | [] => by simp [memS]
  | x :: rest => by
    by_cases h : s = x <;> simp [memS, h, memS_iff rest]

section Claims1

/-- C1: on the canonical grammar `E -> T E'`, `E' -> + T E' | ε`,
`T -> F T'`, `T' -> * F T' | ε`, `F -> ( E ) | id`, `calculate_all`
yields exactly `FIRST(F) = FIRST(T) = FIRST(E) = {(, id}`,
`FIRST(E') = {+, ε}`, `FIRST(T') = {*, ε}`, and
`FOLLOW(E) = FOLLOW(E') = {), $}`, `FOLLOW(T) = FOLLOW(T') = {+, ), $}`,
`FOLLOW(F) = {+, *, ), $}`. -/
theorem canonical_first_follow :
    (calculate_all gCanon 50 10 initFS emptyFollow).map
        (fun r =>
          ([lookupA r.1.first_sets "F", lookupA r.1.first_sets "T", lookupA r.1.first_sets "E",
            lookupA r.1.first_sets "E'", lookupA r.1.first_sets "T'"],
           [r.2 "E", r.2 "E'", r.2 "T", r.2 "T'", r.2 "F"])) =
      some ([some {"(", "id"}, some {"(", "id"}, some {"(", "id"},
             some {EPSILON, "+"}, some {EPSILON, "*"}],
            [{END_MARKER, ")"}, {END_MARKER, ")"},
             {"+", END_MARKER, ")"}, {"+", END_MARKER, ")"},
             {"*", "+", END_MARKER, ")"}]) := by decide

/-- C2 counterexample: the claim says a production whose scan is stopped
by the self-recursion guard contributes no `EPSILON` to `FIRST(A)`.  On
`A -> A a` (whose single production is guard-stopped) that would force
`EPSILON ∉ FIRST(A)`, but the code leaves `add_epsilon = True` at the
`break` and returns `FIRST(A) = {ε}`. -/
theorem scan_guard_claim_false :
    ¬ (∀ p, compute_first gLrec 5 initFS "A" = some p → EPSILON ∉ p.2) := fun h =>
  h (⟨[("A", {EPSILON})], []⟩, {EPSILON}) (by decide) (by decide)

/-- C2 amended: when the self-recursion guard fires (the scanned symbol
equals the symbol under computation), the scan stops with `add_epsilon`
still `true` and the accumulated set unchanged, so such a production does
contribute `EPSILON` to `FIRST(A)`. -/
theorem scan_guard_add_epsilon (g : Grammar) (f : Nat) (st : FirstState) (symbol : Symbol)
    (γ : List Symbol) (acc : Finset Symbol) :
    scanSyms g (f + 1) st symbol (symbol :: γ) acc = some (st, acc, true) := by
  simp [scanSyms]

/-- Membership of the filter defining terminal detection. -/
theorem mem_detectTerminals {prods : List (Symbol × List (List Symbol))} {nts : List Symbol}
    {x : Symbol} :
    x ∈ detectTerminals prods nts ↔ x ∈ allSymbols prods ∧ x ∉ nts ∧ x ≠ EPSILON := by
  simp [detectTerminals, ← memS_iff]

/-- C3: a non-terminal (a member of `non_terminals`, hence never detected
as a terminal) with no entry in the production dictionary makes
`compute_first` emit the undefined-symbol diagnostic, record the empty set
in the memo, and return it without failing. -/
theorem undefined_symbol_first (g : Grammar) (f : Nat) (st : FirstState) (A : Symbol)
    (hnt : A ∈ g.nts) (_href : A ∈ allSymbols g.prods)
    (hmemo : lookupA st.first_sets A = none)
    (hundef : (lookupA g.prods A).isNone = true) (hne : A ≠ EPSILON) :
    compute_first g (f + 1) st A =
      some (⟨(A, ∅) :: st.first_sets, undefinedMsg A :: st.diags⟩, ∅) := by
  have hterm : A ∉ terminalsOf g := by
    intro hmem
    exact (mem_detectTerminals.mp hmem).2.1 hnt
  simp [compute_first, hmemo, hterm, hne, hundef]

/-- C3 witness: in the grammar `S -> A b` with the declared but
production-less non-terminal `A`, `compute_first` on `A` reports the
diagnostic and returns the empty set. -/
theorem undefined_symbol_first_witness :
    compute_first (⟨[("S", [["A", "b"]])], ["S", "A"], "S"⟩ : Grammar) 3 initFS "A" =
      some (⟨[("A", ∅)], [undefinedMsg "A"]⟩, ∅) :=
  undefined_symbol_first _ 2 _ _ (by decide) (by decide) (by decide) (by decide) (by decide)

end Claims1

end FF

namespace FF

section Claims2


/-- The surviving `add_epsilon` flag of the sequence scan is `true` exactly
when every scanned symbol's FIRST set contains `EPSILON`. -/
theorem firstSeqAux_eps_iff (g : Grammar) (F : Nat) :
    ∀ (l : List Symbol) (st : FirstState) (acc : Finset Symbol) (st' : FirstState)
      (r : Finset Symbol) (b : Bool),
      firstSeqAux g F st l acc = some (st', r, b) → (b = true ↔ SuffixAllEps g F st l)
  | [], st, acc, st', r, b => by
    intro h
    simp only [firstSeqAux, Option.some.injEq, Prod.mk.injEq] at h
    simp [← h.2.2, SuffixAllEps]
  | sym :: rest, st, acc, st', r, b => by
    intro h
    cases h1 : compute_first g F st sym with
    | none =>
      simp only [firstSeqAux, h1] at h
      exact Option.noConfusion h
    | some p =>
      obtain ⟨st1, S⟩ := p
      simp only [firstSeqAux, h1] at h
      by_cases h2 : EPSILON ∈ S
      case pos =>
        rw [if_pos h2] at h
        have ih := firstSeqAux_eps_iff g F rest st1 (acc ∪ S.erase EPSILON) st' r b h
        constructor
        · intro hb
          exact ⟨st1, S, h1, h2, ih.mp hb⟩
        · rintro ⟨st2, S2, hcf, hmem, hsuf⟩
          rw [h1] at hcf
          simp only [Option.some.injEq, Prod.mk.injEq] at hcf
          obtain ⟨rfl, rfl⟩ := hcf
          exact ih.mpr hsuf
      case neg =>
        rw [if_neg h2] at h
        simp only [Option.some.injEq, Prod.mk.injEq] at h
        constructor
        · intro hb; rw [← h.2.2] at hb; exact absurd hb (by simp)
        · rintro ⟨st2, S2, hcf, hmem, _⟩
          rw [h1] at hcf
          simp only [Option.some.injEq, Prod.mk.injEq] at hcf
          obtain ⟨rfl, rfl⟩ := hcf
          exact absurd hmem h2

/-- The accumulated set of the sequence scan never contains `EPSILON`
when the initial accumulator does not (only `erase EPSILON` sets are
unioned in). -/
theorem firstSeqAux_no_eps (g : Grammar) (F : Nat) :
    ∀ (l : List Symbol) (st : FirstState) (acc : Finset Symbol) (st' : FirstState)
      (r : Finset Symbol) (b : Bool),
      firstSeqAux g F st l acc = some (st', r, b) → EPSILON ∉ acc → EPSILON ∉ r
  | [], st, acc, st', r, b => by
    intro h hacc
    simp only [firstSeqAux, Option.some.injEq, Prod.mk.injEq] at h
    rw [← h.2.1]; exact hacc
  | sym :: rest, st, acc, st', r, b => by
    intro h hacc
    cases h1 : compute_first g F st sym with
    | none =>
      simp only [firstSeqAux, h1] at h
      exact Option.noConfusion h
    | some p =>
      obtain ⟨st1, S⟩ := p
      simp only [firstSeqAux, h1] at h
      have hacc' : EPSILON ∉ acc ∪ S.erase EPSILON := by
        simp [hacc]
      by_cases h2 : EPSILON ∈ S
      case pos =>
        rw [if_pos h2] at h
        exact firstSeqAux_no_eps g F rest st1 _ st' r b h hacc'
      case neg =>
        rw [if_neg h2] at h
        simp only [Option.some.injEq, Prod.mk.injEq] at h
        rw [← h.2.1]; exact hacc'

/-- C6: `first_of_sequence` on an exhausted suffix (`start ≥ len`) returns
exactly `{EPSILON}` with the state untouched; and in general `EPSILON` is
in the result iff every symbol of the remaining suffix has `EPSILON` in
its FIRST set (the scan as the code threads it). -/
theorem first_of_sequence_epsilon :
    (∀ (g : Grammar) (F : Nat) (st : FirstState) (sequence : List Symbol) (start : Nat),
        sequence.length ≤ start →
        first_of_sequence g F st sequence start = some (st, {EPSILON})) ∧
    (∀ (g : Grammar) (F : Nat) (st : FirstState) (sequence : List Symbol) (start : Nat)
        (st' : FirstState) (R : Finset Symbol),
        first_of_sequence g F st sequence start = some (st', R) →
        (EPSILON ∈ R ↔ SuffixAllEps g F st (sequence.drop start))) := by
  constructor
  · intro g F st sequence start hle
    have hd : sequence.drop start = [] := List.drop_eq_nil_of_le hle
    simp [first_of_sequence, hd, firstSeqAux]
  · intro g F st sequence start st' R h
    cases haux : firstSeqAux g F st (sequence.drop start) ∅ with
    | none =>
      simp only [first_of_sequence, haux] at h
      exact Option.noConfusion h
    | some p =>
      obtain ⟨st0, r0, b0⟩ := p
      simp only [first_of_sequence, haux, Option.some.injEq, Prod.mk.injEq] at h
      obtain ⟨rfl, rfl⟩ := h
      have hne : EPSILON ∉ r0 :=
        firstSeqAux_no_eps g F (sequence.drop start) st ∅ st0 r0 b0 haux (by simp)
      have hiff := firstSeqAux_eps_iff g F (sequence.drop start) st ∅ st0 r0 b0 haux
      cases b0 with
      | true =>
        simp only [if_pos]
        constructor
        · intro _; exact hiff.mp rfl
        · intro _; exact Finset.mem_insert_self _ _
      | false =>
        simp only [Bool.false_eq_true, if_neg, not_false_iff]
        constructor
        · intro hm; exact absurd hm hne
        · intro hs; exact absurd (hiff.mpr hs) (by simp)

/-- C6 witness: concrete instances of both parts on the canonical grammar. -/
theorem first_of_sequence_epsilon_witness :
    first_of_sequence gCanon 9 initFS ["T", "E'"] 5 = some (initFS, {EPSILON}) ∧
    (EPSILON ∈ ({"+"} : Finset Symbol) ↔ SuffixAllEps gCanon 9 initFS (["+"].drop 0)) :=
  ⟨first_of_sequence_epsilon.1 gCanon 9 initFS ["T", "E'"] 5 (by decide),
   first_of_sequence_epsilon.2 gCanon 9 initFS ["+"] 0 ⟨[("+", {"+"})], []⟩ {"+"} (by decide)⟩

/-- C9: the terminal detection of `parse_grammar` computes exactly
(all body symbols) minus (non-terminals) minus `{EPSILON}`; `END_MARKER`
is never classified as a terminal when it occurs in no production body;
and an empty grammar yields an empty terminal set. -/
theorem terminal_classification :
    (∀ (prods : List (Symbol × List (List Symbol))) (nts : List Symbol),
        detectTerminals prods nts = (allSymbols prods \ nts.toFinset) \ {EPSILON}) ∧
    (∀ g : Grammar, END_MARKER ∉ allSymbols g.prods → END_MARKER ∉ terminalsOf g) ∧
    (∀ nts : List Symbol, detectTerminals [] nts = ∅) := by
  refine ⟨?_, ?_, ?_⟩
  · intro prods nts
    ext x
    simp only [mem_detectTerminals, Finset.mem_sdiff, Finset.mem_singleton, List.mem_toFinset]
    tauto
  · intro g h hmem
    exact h (mem_detectTerminals.mp hmem).1
  · intro nts
    rw [detectTerminals]
    rfl

/-- C9 witness: `END_MARKER` occurs in no body of the canonical grammar,
hence is not detected as a terminal. -/
theorem terminal_classification_witness : END_MARKER ∉ terminalsOf gCanon :=
  terminal_classification.2.1 gCanon (by decide)

end Claims2

end FF

namespace FF

section FollowStepLemmas

variable {fs : FollowSets} {lhs symbol A : Symbol} {B X : Finset Symbol}

/-- A `follow_sets[symbol].update(...)` step only enlarges the updated set. -/
theorem update_union_apply_mono (fs : FollowSets) (symbol : Symbol) (X : Finset Symbol)
    (A : Symbol) : fs A ⊆ Function.update fs symbol (fs symbol ∪ X) A := by
  by_cases hA : A = symbol
  · subst hA
    rw [Function.update_same]
    exact fun x hx => Finset.mem_union_left _ hx
  · rw [Function.update_noteq hA]

theorem update_union_apply_ne (hA : A ≠ symbol) (X : Finset Symbol) :
    Function.update fs symbol (fs symbol ∪ X) A = fs A :=
  Function.update_noteq hA _ _

theorem update_union_noEps (hfs : ∀ C, EPSILON ∉ fs C) (hX : EPSILON ∉ X) :
    ∀ A, EPSILON ∉ Function.update fs symbol (fs symbol ∪ X) A := by
  intro A
  by_cases hA : A = symbol
  · subst hA
    rw [Function.update_same]
    simp [hfs, hX]
  · rw [Function.update_noteq hA]
    exact hfs A

theorem update_union_bounded {U : Finset Symbol} (hfs : ∀ C, fs C ⊆ U) (hX : X ⊆ U) :
    ∀ A, Function.update fs symbol (fs symbol ∪ X) A ⊆ U := by
  intro A
  by_cases hA : A = symbol
  · subst hA
    rw [Function.update_same]
    exact Finset.union_subset (hfs _) hX
  · rw [Function.update_noteq hA]
    exact hfs A

theorem ruleTwoThree_apply_mono (fs : FollowSets) (lhs symbol : Symbol) (B : Finset Symbol)
    (A : Symbol) : fs A ⊆ ruleTwoThree fs lhs symbol B A := by
  have h1 := update_union_apply_mono fs symbol (B.erase EPSILON) A
  simp only [ruleTwoThree]
  by_cases hB : EPSILON ∈ B
  · rw [if_pos hB]
    exact h1.trans (update_union_apply_mono _ symbol _ A)
  · rw [if_neg hB]
    exact h1

theorem ruleTwoThree_apply_ne (hA : A ≠ symbol) :
    ruleTwoThree fs lhs symbol B A = fs A := by
  simp only [ruleTwoThree]
  by_cases hB : EPSILON ∈ B
  · rw [if_pos hB, update_union_apply_ne hA, update_union_apply_ne hA]
  · rw [if_neg hB, update_union_apply_ne hA]

theorem ruleTwoThree_noEps (hfs : ∀ C, EPSILON ∉ fs C) :
    ∀ A, EPSILON ∉ ruleTwoThree fs lhs symbol B A := by
  intro A
  have h1 : ∀ C, EPSILON ∉
      Function.update fs symbol (fs symbol ∪ B.erase EPSILON) C :=
    update_union_noEps hfs (Finset.not_mem_erase EPSILON B)
  simp only [ruleTwoThree]
  by_cases hB : EPSILON ∈ B
  · rw [if_pos hB]
    exact update_union_noEps h1 (h1 lhs) A
  · rw [if_neg hB]
    exact h1 A

theorem ruleTwoThree_bounded {U : Finset Symbol} (hfs : ∀ C, fs C ⊆ U)
    (hB : B.erase EPSILON ⊆ U) : ∀ A, ruleTwoThree fs lhs symbol B A ⊆ U := by
  intro A
  have h1 : ∀ C, Function.update fs symbol (fs symbol ∪ B.erase EPSILON) C ⊆ U :=
    update_union_bounded hfs hB
  simp only [ruleTwoThree]
  by_cases hmem : EPSILON ∈ B
  · rw [if_pos hmem]
    exact update_union_bounded h1 (h1 lhs) A
  · rw [if_neg hmem]
    exact h1 A

theorem ruleTwoThreeChanged_false
    (h : ruleTwoThreeChanged fs lhs symbol B = false) :
    ruleTwoThree fs lhs symbol B = fs := by
  have hm := ruleTwoThree_apply_mono fs lhs symbol B symbol
  have hcard : ¬ (fs symbol).card < (ruleTwoThree fs lhs symbol B symbol).card := by
    simp only [ruleTwoThreeChanged, Bool.or_eq_false_iff, decide_eq_false_iff_not] at h
    exact h.2
  have heq : ruleTwoThree fs lhs symbol B symbol = fs symbol :=
    (Finset.eq_of_subset_of_card_le hm (Nat.le_of_not_lt hcard)).symm
  funext A
  by_cases hA : A = symbol
  · subst hA
    exact heq
  · exact ruleTwoThree_apply_ne hA

theorem ruleTwoThreeChanged_true
    (h : ruleTwoThreeChanged fs lhs symbol B = true) :
    (fs symbol).card < (ruleTwoThree fs lhs symbol B symbol).card := by
  simp only [ruleTwoThreeChanged, Bool.or_eq_true, decide_eq_true_eq] at h
  rcases h with h | h
  · by_cases hB : EPSILON ∈ B
    · rw [if_pos hB] at h
      simp only [decide_eq_true_eq] at h
      have hle : (fs symbol).card ≤
          ((Function.update fs symbol (fs symbol ∪ B.erase EPSILON)) symbol).card :=
        Finset.card_le_card (update_union_apply_mono fs symbol _ symbol)
      exact Nat.lt_of_le_of_lt hle h
    · rw [if_neg hB] at h
      exact absurd h (by simp)
  · exact h

theorem ruleThree_apply_mono (fs : FollowSets) (lhs symbol : Symbol) (A : Symbol) :
    fs A ⊆ ruleThree fs lhs symbol A :=
  update_union_apply_mono fs symbol (fs lhs) A

theorem ruleThree_apply_ne (hA : A ≠ symbol) : ruleThree fs lhs symbol A = fs A :=
  update_union_apply_ne hA _

theorem ruleThree_noEps (hfs : ∀ C, EPSILON ∉ fs C) :
    ∀ A, EPSILON ∉ ruleThree fs lhs symbol A :=
  update_union_noEps hfs (hfs lhs)

theorem ruleThree_bounded {U : Finset Symbol} (hfs : ∀ C, fs C ⊆ U) :
    ∀ A, ruleThree fs lhs symbol A ⊆ U :=
  update_union_bounded hfs (hfs lhs)

theorem ruleThreeChanged_false (h : ruleThreeChanged fs lhs symbol = false) :
    ruleThree fs lhs symbol = fs := by
  have hm := ruleThree_apply_mono fs lhs symbol symbol
  simp only [ruleThreeChanged, decide_eq_false_iff_not] at h
  have heq : ruleThree fs lhs symbol symbol = fs symbol :=
    (Finset.eq_of_subset_of_card_le hm (Nat.le_of_not_lt h)).symm
  funext A
  by_cases hA : A = symbol
  · subst hA
    exact heq
  · exact ruleThree_apply_ne hA

theorem ruleThreeChanged_true (h : ruleThreeChanged fs lhs symbol = true) :
    (fs symbol).card < (ruleThree fs lhs symbol symbol).card := by
  simpa [ruleThreeChanged] using h

end FollowStepLemmas

end FF

namespace FF


section FollowLevelLemmas

/-- FOLLOW sets only grow along the position loop. -/
theorem followPos_mono (g : Grammar) (F : Nat) (lhs : Symbol) (prod : List Symbol) :
    ∀ (l : List (Nat × Symbol)) (st : FirstState) (fs : FollowSets) (ch : Bool)
      (st' : FirstState) (fs' : FollowSets) (ch' : Bool),
      followPos g F lhs prod st fs l ch = some (st', fs', ch') → ∀ A, fs A ⊆ fs' A
  | [], st, fs, ch, st', fs', ch' => by
    intro h A
    simp only [followPos, Option.some.injEq, Prod.mk.injEq] at h
    rw [← h.2.1]
  | (i, symbol) :: rest, st, fs, ch, st', fs', ch' => by
    intro h A
    simp only [followPos] at h
    by_cases hg : memS symbol g.nts = false
    · rw [if_pos hg] at h
      exact followPos_mono g F lhs prod rest st fs ch st' fs' ch' h A
    · rw [if_neg hg] at h
      by_cases hlen : i + 1 < prod.length
      · rw [if_pos hlen] at h
        cases hseq : first_of_sequence g F st prod (i + 1) with
        | none =>
          simp only [hseq] at h
          exact Option.noConfusion h
        | some p =>
          obtain ⟨st1, firstBeta⟩ := p
          simp only [hseq] at h
          exact (ruleTwoThree_apply_mono fs lhs symbol firstBeta A).trans
            (followPos_mono g F lhs prod rest st1 _ _ st' fs' ch' h A)
      · rw [if_neg hlen] at h
        exact (ruleThree_apply_mono fs lhs symbol A).trans
          (followPos_mono g F lhs prod rest st _ _ st' fs' ch' h A)

/-- Epsilon-freedom is preserved by the position loop (both update rules
only add `erase EPSILON` sets or other FOLLOW sets). -/
theorem followPos_noEps (g : Grammar) (F : Nat) (lhs : Symbol) (prod : List Symbol) :
    ∀ (l : List (Nat × Symbol)) (st : FirstState) (fs : FollowSets) (ch : Bool)
      (st' : FirstState) (fs' : FollowSets) (ch' : Bool),
      followPos g F lhs prod st fs l ch = some (st', fs', ch') →
      (∀ A, EPSILON ∉ fs A) → ∀ A, EPSILON ∉ fs' A
  | [], st, fs, ch, st', fs', ch' => by
    intro h hfs A
    simp only [followPos, Option.some.injEq, Prod.mk.injEq] at h
    rw [← h.2.1]
    exact hfs A
  | (i, symbol) :: rest, st, fs, ch, st', fs', ch' => by
    intro h hfs A
    simp only [followPos] at h
    by_cases hg : memS symbol g.nts = false
    · rw [if_pos hg] at h
      exact followPos_noEps g F lhs prod rest st fs ch st' fs' ch' h hfs A
    · rw [if_neg hg] at h
      by_cases hlen : i + 1 < prod.length
      · rw [if_pos hlen] at h
        cases hseq : first_of_sequence g F st prod (i + 1) with
        | none =>
          simp only [hseq] at h
          exact Option.noConfusion h
        | some p =>
          obtain ⟨st1, firstBeta⟩ := p
          simp only [hseq] at h
          exact followPos_noEps g F lhs prod rest st1 _ _ st' fs' ch' h
            (ruleTwoThree_noEps hfs) A
      · rw [if_neg hlen] at h
        exact followPos_noEps g F lhs prod rest st _ _ st' fs' ch' h
          (ruleThree_noEps hfs) A

/-- If the position loop reports no change, the FOLLOW map is unchanged
and the incoming flag was already false. -/
theorem followPos_changed_false (g : Grammar) (F : Nat) (lhs : Symbol) (prod : List Symbol) :
    ∀ (l : List (Nat × Symbol)) (st : FirstState) (fs : FollowSets) (ch : Bool)
      (st' : FirstState) (fs' : FollowSets),
      followPos g F lhs prod st fs l ch = some (st', fs', false) → ch = false ∧ fs' = fs
  | [], st, fs, ch, st', fs' => by
    intro h
    simp only [followPos, Option.some.injEq, Prod.mk.injEq] at h
    exact ⟨h.2.2, h.2.1.symm⟩
  | (i, symbol) :: rest, st, fs, ch, st', fs' => by
    intro h
    simp only [followPos] at h
    by_cases hg : memS symbol g.nts = false
    · rw [if_pos hg] at h
      exact followPos_changed_false g F lhs prod rest st fs ch st' fs' h
    · rw [if_neg hg] at h
      by_cases hlen : i + 1 < prod.length
      · rw [if_pos hlen] at h
        cases hseq : first_of_sequence g F st prod (i + 1) with
        | none =>
          simp only [hseq] at h
          exact Option.noConfusion h
        | some p =>
          obtain ⟨st1, firstBeta⟩ := p
          simp only [hseq] at h
          have ih := followPos_changed_false g F lhs prod rest st1 _ _ st' fs' h
          have hor := Bool.or_eq_false_iff.mp ih.1
          have hrt := ruleTwoThreeChanged_false hor.2
          exact ⟨hor.1, by rw [ih.2, hrt]⟩
      · rw [if_neg hlen] at h
        have ih := followPos_changed_false g F lhs prod rest st _ _ st' fs' h
        have hor := Bool.or_eq_false_iff.mp ih.1
        have hrt := ruleThreeChanged_false hor.2
        exact ⟨hor.1, by rw [ih.2, hrt]⟩

/-- The position loop writes only at symbols occurring in the pair list. -/
theorem followPos_apply_off (g : Grammar) (F : Nat) (lhs : Symbol) (prod : List Symbol) :
    ∀ (l : List (Nat × Symbol)) (st : FirstState) (fs : FollowSets) (ch : Bool)
      (st' : FirstState) (fs' : FollowSets) (ch' : Bool),
      followPos g F lhs prod st fs l ch = some (st', fs', ch') →
      ∀ A, (∀ p ∈ l, p.2 ≠ A) → fs' A = fs A
  | [], st, fs, ch, st', fs', ch' => by
    intro h A _
    simp only [followPos, Option.some.injEq, Prod.mk.injEq] at h
    rw [← h.2.1]
  | (i, symbol) :: rest, st, fs, ch, st', fs', ch' => by
    intro h A hA
    have hs : symbol ≠ A := hA (i, symbol) (List.mem_cons_self _ _)
    have hrest : ∀ p ∈ rest, p.2 ≠ A := fun p hp => hA p (List.mem_cons_of_mem _ hp)
    simp only [followPos] at h
    by_cases hg : memS symbol g.nts = false
    · rw [if_pos hg] at h
      exact followPos_apply_off g F lhs prod rest st fs ch st' fs' ch' h A hrest
    · rw [if_neg hg] at h
      by_cases hlen : i + 1 < prod.length
      · rw [if_pos hlen] at h
        cases hseq : first_of_sequence g F st prod (i + 1) with
        | none =>
          simp only [hseq] at h
          exact Option.noConfusion h
        | some p =>
          obtain ⟨st1, firstBeta⟩ := p
          simp only [hseq] at h
          rw [followPos_apply_off g F lhs prod rest st1 _ _ st' fs' ch' h A hrest]
          exact ruleTwoThree_apply_ne (Ne.symm hs)
      · rw [if_neg hlen] at h
        rw [followPos_apply_off g F lhs prod rest st _ _ st' fs' ch' h A hrest]
        exact ruleThree_apply_ne (Ne.symm hs)

end FollowLevelLemmas

end FF

namespace FF

section FollowAggregateLemmas

theorem snd_mem_of_mem_enumFrom :
    ∀ (l : List Symbol) (n : Nat) (p : Nat × Symbol), p ∈ l.enumFrom n → p.2 ∈ l
  | [], _, p => by simp [List.enumFrom]
  | x :: rest, n, p => by
    intro h
    rw [List.enumFrom] at h
    rcases List.mem_cons.mp h with h1 | h1
    · cases h1
      exact List.mem_cons_self _ _
    · exact List.mem_cons_of_mem _ (snd_mem_of_mem_enumFrom rest (n + 1) p h1)

theorem followProds_mono (g : Grammar) (F : Nat) (lhs : Symbol) :
    ∀ (ps : List (List Symbol)) (st : FirstState) (fs : FollowSets) (ch : Bool)
      (st' : FirstState) (fs' : FollowSets) (ch' : Bool),
      followProds g F lhs st fs ps ch = some (st', fs', ch') → ∀ A, fs A ⊆ fs' A
  | [], st, fs, ch, st', fs', ch' => by
    intro h A
    simp only [followProds, Option.some.injEq, Prod.mk.injEq] at h
    rw [← h.2.1]
  | prod :: rest, st, fs, ch, st', fs', ch' => by
    intro h A
    simp only [followProds] at h
    cases hp : followPos g F lhs prod st fs prod.enum ch with
    | none =>
      simp only [hp] at h
      exact Option.noConfusion h
    | some t =>
      obtain ⟨st1, fs1, ch1⟩ := t
      simp only [hp] at h
      exact (followPos_mono g F lhs prod prod.enum st fs ch st1 fs1 ch1 hp A).trans
        (followProds_mono g F lhs rest st1 fs1 ch1 st' fs' ch' h A)

theorem followProds_noEps (g : Grammar) (F : Nat) (lhs : Symbol) :
    ∀ (ps : List (List Symbol)) (st : FirstState) (fs : FollowSets) (ch : Bool)
      (st' : FirstState) (fs' : FollowSets) (ch' : Bool),
      followProds g F lhs st fs ps ch = some (st', fs', ch') →
      (∀ A, EPSILON ∉ fs A) → ∀ A, EPSILON ∉ fs' A
  | [], st, fs, ch, st', fs', ch' => by
    intro h hfs A
    simp only [followProds, Option.some.injEq, Prod.mk.injEq] at h
    rw [← h.2.1]
    exact hfs A
  | prod :: rest, st, fs, ch, st', fs', ch' => by
    intro h hfs A
    simp only [followProds] at h
    cases hp : followPos g F lhs prod st fs prod.enum ch with
    | none =>
      simp only [hp] at h
      exact Option.noConfusion h
    | some t =>
      obtain ⟨st1, fs1, ch1⟩ := t
      simp only [hp] at h
      exact followProds_noEps g F lhs rest st1 fs1 ch1 st' fs' ch' h
        (followPos_noEps g F lhs prod prod.enum st fs ch st1 fs1 ch1 hp hfs) A

theorem followPass_mono (g : Grammar) (F : Nat) :
    ∀ (gl : List (Symbol × List (List Symbol))) (st : FirstState) (fs : FollowSets)
      (ch : Bool) (st' : FirstState) (fs' : FollowSets) (ch' : Bool),
      followPass g F st fs gl ch = some (st', fs', ch') → ∀ A, fs A ⊆ fs' A
  | [], st, fs, ch, st', fs', ch' => by
    intro h A
    simp only [followPass, Option.some.injEq, Prod.mk.injEq] at h
    rw [← h.2.1]
  | (lhs, productions) :: rest, st, fs, ch, st', fs', ch' => by
    intro h A
    simp only [followPass] at h
    cases hp : followProds g F lhs st fs productions ch with
    | none =>
      simp only [hp] at h
      exact Option.noConfusion h
    | some t =>
      obtain ⟨st1, fs1, ch1⟩ := t
      simp only [hp] at h
      exact (followProds_mono g F lhs productions st fs ch st1 fs1 ch1 hp A).trans
        (followPass_mono g F rest st1 fs1 ch1 st' fs' ch' h A)

theorem followPass_noEps (g : Grammar) (F : Nat) :
    ∀ (gl : List (Symbol × List (List Symbol))) (st : FirstState) (fs : FollowSets)
      (ch : Bool) (st' : FirstState) (fs' : FollowSets) (ch' : Bool),
      followPass g F st fs gl ch = some (st', fs', ch') →
      (∀ A, EPSILON ∉ fs A) → ∀ A, EPSILON ∉ fs' A
  | [], st, fs, ch, st', fs', ch' => by
    intro h hfs A
    simp only [followPass, Option.some.injEq, Prod.mk.injEq] at h
    rw [← h.2.1]
    exact hfs A
  | (lhs, productions) :: rest, st, fs, ch, st', fs', ch' => by
    intro h hfs A
    simp only [followPass] at h
    cases hp : followProds g F lhs st fs productions ch with
    | none =>
      simp only [hp] at h
      exact Option.noConfusion h
    | some t =>
      obtain ⟨st1, fs1, ch1⟩ := t
      simp only [hp] at h
      exact followPass_noEps g F rest st1 fs1 ch1 st' fs' ch' h
        (followProds_noEps g F lhs productions st fs ch st1 fs1 ch1 hp hfs) A

theorem followLoop_mono (g : Grammar) (F : Nat) :
    ∀ (N : Nat) (st : FirstState) (fs : FollowSets) (r : FirstState × FollowSets),
      followLoop g F N st fs = some r → ∀ A, fs A ⊆ r.2 A
  | 0, st, fs, r => by
    intro h
    simp only [followLoop] at h
    exact Option.noConfusion h
  | Nat.succ N, st, fs, r => by
    intro h A
    simp only [followLoop] at h
    cases hp : followPass g F st fs g.prods false with
    | none =>
      simp only [hp] at h
      exact Option.noConfusion h
    | some t =>
      obtain ⟨st1, fs1, c⟩ := t
      simp only [hp] at h
      have hm := followPass_mono g F g.prods st fs false st1 fs1 c hp A
      cases c with
      | true =>
        rw [if_pos rfl] at h
        exact hm.trans (followLoop_mono g F N st1 fs1 r h A)
      | false =>
        rw [if_neg Bool.false_ne_true] at h
        simp only [Option.some.injEq] at h
        rw [← h]
        exact hm

theorem followLoop_noEps (g : Grammar) (F : Nat) :
    ∀ (N : Nat) (st : FirstState) (fs : FollowSets) (r : FirstState × FollowSets),
      followLoop g F N st fs = some r →
      (∀ A, EPSILON ∉ fs A) → ∀ A, EPSILON ∉ r.2 A
  | 0, st, fs, r => by
    intro h
    simp only [followLoop] at h
    exact Option.noConfusion h
  | Nat.succ N, st, fs, r => by
    intro h hfs A
    simp only [followLoop] at h
    cases hp : followPass g F st fs g.prods false with
    | none =>
      simp only [hp] at h
      exact Option.noConfusion h
    | some t =>
      obtain ⟨st1, fs1, c⟩ := t
      simp only [hp] at h
      have hn := followPass_noEps g F g.prods st fs false st1 fs1 c hp hfs
      cases c with
      | true =>
        rw [if_pos rfl] at h
        exact followLoop_noEps g F N st1 fs1 r h hn A
      | false =>
        rw [if_neg Bool.false_ne_true] at h
        simp only [Option.some.injEq] at h
        rw [← h]
        exact hn A

/-- The seed `follow_sets[start_symbol].add(END_MARKER)` keeps FOLLOW sets
epsilon-free (`END_MARKER ≠ EPSILON`). -/
theorem seed_noEps {fs : FollowSets} (s0 : Symbol) (hfs : ∀ A, EPSILON ∉ fs A) :
    ∀ A, EPSILON ∉ Function.update fs s0 (insert END_MARKER (fs s0)) A := by
  intro A
  by_cases hA : A = s0
  · subst hA
    rw [Function.update_same]
    simp only [Finset.mem_insert]
    rintro (h | h)
    · exact absurd h (by decide)
    · exact hfs _ h
  · rw [Function.update_noteq hA]
    exact hfs A

end FollowAggregateLemmas

end FF

namespace FF

section Claims3

/-- C4: `EPSILON` never enters any FOLLOW set: neither through a single
position step of the relaxation loop (rule 2 filters `t != EPSILON`, rule 3
copies an epsilon-free FOLLOW set) — covering every intermediate state of
the fixpoint iteration — nor in the final result of `compute_follow`. -/
theorem follow_never_epsilon :
    (∀ (g : Grammar) (F : Nat) (lhs : Symbol) (prod : List Symbol)
       (l : List (Nat × Symbol)) (st : FirstState) (fs : FollowSets) (ch : Bool)
       (st' : FirstState) (fs' : FollowSets) (ch' : Bool),
       followPos g F lhs prod st fs l ch = some (st', fs', ch') →
       (∀ A, EPSILON ∉ fs A) → ∀ A, EPSILON ∉ fs' A) ∧
    (∀ (g : Grammar) (F N : Nat) (st : FirstState) (fs : FollowSets)
       (r : FirstState × FollowSets),
       compute_follow g F N st fs = some r →
       (∀ A, EPSILON ∉ fs A) → ∀ A, EPSILON ∉ r.2 A) := by
  constructor
  · intro g F lhs prod l st fs ch st' fs' ch' h hfs
    exact followPos_noEps g F lhs prod l st fs ch st' fs' ch' h hfs
  · intro g F N st fs r h hfs
    simp only [compute_follow] at h
    exact followLoop_noEps g F N st _ r h (seed_noEps g.start hfs)

/-- C4 witness: on the trivial grammar `S -> a`, starting from empty FOLLOW
sets, the computed FOLLOW of the start symbol is epsilon-free (and a
concrete position step preserves epsilon-freedom). -/
theorem follow_never_epsilon_witness :
    ∃ r, compute_follow gTriv 9 5 initFS emptyFollow = some r ∧ EPSILON ∉ r.2 "S" := by
  have hs : (compute_follow gTriv 9 5 initFS emptyFollow).isSome = true := by decide
  obtain ⟨r, hr⟩ := Option.isSome_iff_exists.mp hs
  refine ⟨r, hr, ?_⟩
  exact follow_never_epsilon.2 gTriv 9 5 initFS emptyFollow r hr
    (fun A => by simp [emptyFollow]) "S"

/-- C5: after `compute_follow` returns, `END_MARKER` is a member of
`FOLLOW(start_symbol)`: the seed inserts it and every relaxation step only
enlarges FOLLOW sets. -/
theorem end_marker_in_follow (g : Grammar) (F N : Nat) (st : FirstState) (fs : FollowSets)
    (r : FirstState × FollowSets) (h : compute_follow g F N st fs = some r) :
    END_MARKER ∈ r.2 g.start := by
  simp only [compute_follow] at h
  have hseed : END_MARKER ∈
      Function.update fs g.start (insert END_MARKER (fs g.start)) g.start := by
    rw [Function.update_same]
    exact Finset.mem_insert_self _ _
  exact followLoop_mono g F N st _ r h g.start hseed

/-- C5 witness: the single trivial production `S -> a` still ends with
`$ ∈ FOLLOW(S)`. -/
theorem end_marker_in_follow_witness :
    ∃ r, compute_follow gTriv 9 5 initFS emptyFollow = some r ∧
      END_MARKER ∈ r.2 gTriv.start := by
  have hs : (compute_follow gTriv 9 5 initFS emptyFollow).isSome = true := by decide
  obtain ⟨r, hr⟩ := Option.isSome_iff_exists.mp hs
  exact ⟨r, hr, end_marker_in_follow gTriv 9 5 initFS emptyFollow r hr⟩

end Claims3

end FF

namespace FF


section Claims4

theorem mem_foldl_insert_rule :
    ∀ (rule : List Symbol) (acc : Finset Symbol) (x : Symbol), x ∈ acc ∨ x ∈ rule →
      x ∈ rule.foldl (fun acc sym => insert sym acc) acc
  | [], acc, x => by
    intro h
    rcases h with h | h
    · simpa using h
    · exact absurd h (by simp)
  | s :: rest, acc, x => by
    intro h
    have : x ∈ insert s acc ∨ x ∈ rest := by
      rcases h with h | h
      · exact Or.inl (Finset.mem_insert_of_mem h)
      · rcases List.mem_cons.mp h with h | h
        · exact Or.inl (by simp [h])
        · exact Or.inr h
    exact mem_foldl_insert_rule rest (insert s acc) x this

theorem mem_foldl_insert_rules :
    ∀ (rules : List (List Symbol)) (acc : Finset Symbol) (x : Symbol),
      (x ∈ acc ∨ ∃ rule ∈ rules, x ∈ rule) →
      x ∈ rules.foldl (fun acc rule => rule.foldl (fun acc sym => insert sym acc) acc) acc
  | [], acc, x => by
    intro h
    rcases h with h | ⟨rule, hr, _⟩
    · simpa using h
    · exact absurd hr (by simp)
  | r :: rest, acc, x => by
    intro h
    apply mem_foldl_insert_rules rest _ x
    rcases h with h | ⟨rule, hr, hx⟩
    · exact Or.inl (mem_foldl_insert_rule r acc x (Or.inl h))
    · rcases List.mem_cons.mp hr with h1 | h1
      · exact Or.inl (mem_foldl_insert_rule r acc x (Or.inr (h1 ▸ hx)))
      · exact Or.inr ⟨rule, h1, hx⟩

theorem mem_allSymbols_aux :
    ∀ (prods : List (Symbol × List (List Symbol))) (acc : Finset Symbol) (x : Symbol),
      (x ∈ acc ∨ ∃ e ∈ prods, ∃ rule ∈ e.2, x ∈ rule) →
      x ∈ prods.foldl
        (fun acc entry =>
          entry.2.foldl (fun acc rule => rule.foldl (fun acc sym => insert sym acc) acc) acc)
        acc
  | [], acc, x => by
    intro h
    rcases h with h | ⟨e, he, _⟩
    · simpa using h
    · exact absurd he (by simp)
  | e :: rest, acc, x => by
    intro h
    apply mem_allSymbols_aux rest _ x
    rcases h with h | ⟨e1, he1, rule, hr, hx⟩
    · exact Or.inl (mem_foldl_insert_rules e.2 acc x (Or.inl h))
    · rcases List.mem_cons.mp he1 with h1 | h1
      · exact Or.inl (mem_foldl_insert_rules e.2 acc x (Or.inr ⟨rule, h1 ▸ hr, hx⟩))
      · exact Or.inr ⟨e1, h1, rule, hr, hx⟩

/-- A symbol occurring in some production body is in `allSymbols`. -/
theorem mem_allSymbols_of {prods : List (Symbol × List (List Symbol))}
    {e : Symbol × List (List Symbol)} {rule : List Symbol} {x : Symbol}
    (he : e ∈ prods) (hr : rule ∈ e.2) (hx : x ∈ rule) : x ∈ allSymbols prods :=
  mem_allSymbols_aux prods ∅ x (Or.inr ⟨e, he, rule, hr, hx⟩)

theorem followProds_apply_off (g : Grammar) (F : Nat) (lhs : Symbol) :
    ∀ (ps : List (List Symbol)) (st : FirstState) (fs : FollowSets) (ch : Bool)
      (st' : FirstState) (fs' : FollowSets) (ch' : Bool),
      followProds g F lhs st fs ps ch = some (st', fs', ch') →
      ∀ A, (∀ prod ∈ ps, ∀ x ∈ prod, x ≠ A) → fs' A = fs A
  | [], st, fs, ch, st', fs', ch' => by
    intro h A _
    simp only [followProds, Option.some.injEq, Prod.mk.injEq] at h
    rw [← h.2.1]
  | prod :: rest, st, fs, ch, st', fs', ch' => by
    intro h A hA
    simp only [followProds] at h
    cases hp : followPos g F lhs prod st fs prod.enum ch with
    | none =>
      simp only [hp] at h
      exact Option.noConfusion h
    | some t =>
      obtain ⟨st1, fs1, ch1⟩ := t
      simp only [hp] at h
      have h1 : fs1 A = fs A :=
        followPos_apply_off g F lhs prod prod.enum st fs ch st1 fs1 ch1 hp A
          (fun p hpMem =>
            hA prod (List.mem_cons_self _ _) p.2 (snd_mem_of_mem_enumFrom prod 0 p hpMem))
      rw [followProds_apply_off g F lhs rest st1 fs1 ch1 st' fs' ch' h A
        (fun q hq => hA q (List.mem_cons_of_mem _ hq)), h1]

theorem followPass_apply_off (g : Grammar) (F : Nat) :
    ∀ (gl : List (Symbol × List (List Symbol))) (st : FirstState) (fs : FollowSets)
      (ch : Bool) (st' : FirstState) (fs' : FollowSets) (ch' : Bool),
      followPass g F st fs gl ch = some (st', fs', ch') →
      ∀ A, (∀ e ∈ gl, ∀ prod ∈ e.2, ∀ x ∈ prod, x ≠ A) → fs' A = fs A
  | [], st, fs, ch, st', fs', ch' => by
    intro h A _
    simp only [followPass, Option.some.injEq, Prod.mk.injEq] at h
    rw [← h.2.1]
  | (lhs, productions) :: rest, st, fs, ch, st', fs', ch' => by
    intro h A hA
    simp only [followPass] at h
    cases hp : followProds g F lhs st fs productions ch with
    | none =>
      simp only [hp] at h
      exact Option.noConfusion h
    | some t =>
      obtain ⟨st1, fs1, ch1⟩ := t
      simp only [hp] at h
      have h1 : fs1 A = fs A :=
        followProds_apply_off g F lhs productions st fs ch st1 fs1 ch1 hp A
          (hA (lhs, productions) (List.mem_cons_self _ _))
      rw [followPass_apply_off g F rest st1 fs1 ch1 st' fs' ch' h A
        (fun e he => hA e (List.mem_cons_of_mem _ he)), h1]

theorem followLoop_apply_off (g : Grammar) (F : Nat) :
    ∀ (N : Nat) (st : FirstState) (fs : FollowSets) (r : FirstState × FollowSets),
      followLoop g F N st fs = some r →
      ∀ A, A ∉ allSymbols g.prods → r.2 A = fs A
  | 0, st, fs, r => by
    intro h
    simp only [followLoop] at h
    exact Option.noConfusion h
  | Nat.succ N, st, fs, r => by
    intro h A hA
    have hoff : ∀ e ∈ g.prods, ∀ prod ∈ e.2, ∀ x ∈ prod, x ≠ A := by
      intro e he prod hprod x hx hxA
      exact hA (hxA ▸ mem_allSymbols_of he hprod hx)
    simp only [followLoop] at h
    cases hp : followPass g F st fs g.prods false with
    | none =>
      simp only [hp] at h
      exact Option.noConfusion h
    | some t =>
      obtain ⟨st1, fs1, c⟩ := t
      simp only [hp] at h
      have h1 : fs1 A = fs A := followPass_apply_off g F g.prods st fs false st1 fs1 c hp A hoff
      cases c with
      | true =>
        rw [if_pos rfl] at h
        rw [followLoop_apply_off g F N st1 fs1 r h A hA, h1]
      | false =>
        rw [if_neg Bool.false_ne_true] at h
        simp only [Option.some.injEq] at h
        rw [← h]
        exact h1

/-- C10: `compute_follow` writes only to the FOLLOW sets of the start
symbol and of symbols occurring in some production body, so a non-start
non-terminal that occurs in no body keeps its initial FOLLOW set — the
empty set in the standard run that starts from empty FOLLOW sets. -/
theorem unreferenced_follow_untouched (g : Grammar) (F N : Nat) (st : FirstState)
    (fs : FollowSets) (r : FirstState × FollowSets)
    (h : compute_follow g F N st fs = some r) (A : Symbol) (hstart : A ≠ g.start)
    (hbody : A ∉ allSymbols g.prods) : r.2 A = fs A := by
  simp only [compute_follow] at h
  have hseed : Function.update fs g.start (insert END_MARKER (fs g.start)) A = fs A :=
    Function.update_noteq hstart _ _
  rw [followLoop_apply_off g F N st _ r h A hbody, hseed]

/-- C10 witness: in `S -> a` with the unreferenced extra non-terminal `X`
(production `X -> b`), the analysis ends with `FOLLOW(X) = ∅`. -/
theorem unreferenced_follow_untouched_witness :
    ∃ r, compute_follow gUnref 9 5 initFS emptyFollow = some r ∧ r.2 "X" = ∅ := by
  have hs : (compute_follow gUnref 9 5 initFS emptyFollow).isSome = true := by decide
  obtain ⟨r, hr⟩ := Option.isSome_iff_exists.mp hs
  exact ⟨r, hr,
    unreferenced_follow_untouched gUnref 9 5 initFS emptyFollow r hr "X"
      (by decide) (by decide)⟩

end Claims4

end FF

namespace FF

section MemoLemmas


theorem MemoExt.refl (st : FirstState) : MemoExt st st := fun _ _ h => h

theorem MemoExt.trans {st1 st2 st3 : FirstState} (h1 : MemoExt st1 st2)
    (h2 : MemoExt st2 st3) : MemoExt st1 st3 := fun k w h => h2 k w (h1 k w h)

theorem lookupA_cons_self {β : Type} {l : List (Symbol × β)} {s : Symbol} {x : β} :
    lookupA ((s, x) :: l) s = some x := by
  simp [lookupA]

theorem lookupA_cons_preserve {β : Type} {l : List (Symbol × β)} {s k : Symbol} {x w : β}
    (hs : lookupA l s = none) (h : lookupA l k = some w) :
    lookupA ((s, x) :: l) k = some w := by
  simp only [lookupA]
  by_cases hk : k = s
  · subst hk
    rw [hs] at h
    exact Option.noConfusion h
  · rw [if_neg hk]
    exact h

/-- A successful `compute_first` memoizes exactly its returned set for the
queried symbol (the final `self.first_sets[symbol] = result`). -/
theorem compute_first_memoizes (g : Grammar) :
    ∀ (f : Nat) (st : FirstState) (s : Symbol) (st' : FirstState) (v : Finset Symbol),
      compute_first g f st s = some (st', v) → lookupA st'.first_sets s = some v := by
  intro f st s st' v h
  cases f with
  | zero => exact Option.noConfusion h
  | succ f =>
    simp only [compute_first] at h
    cases hm : lookupA st.first_sets s with
    | some w =>
      simp only [hm, Option.some.injEq, Prod.mk.injEq] at h
      rw [← h.1, ← h.2]
      exact hm
    | none =>
      simp only [hm] at h
      by_cases ht : s ∈ terminalsOf g ∨ s = EPSILON
      · rw [if_pos ht] at h
        simp only [Option.some.injEq, Prod.mk.injEq] at h
        rw [← h.1, ← h.2]
        exact lookupA_cons_self
      · rw [if_neg ht] at h
        by_cases hu : (lookupA g.prods s).isNone = true
        · rw [if_pos hu] at h
          simp only [Option.some.injEq, Prod.mk.injEq] at h
          rw [← h.1, ← h.2]
          exact lookupA_cons_self
        · rw [if_neg hu] at h
          cases hf : foldProds g f st s ((lookupA g.prods s).getD []) ∅ with
          | none =>
            simp only [hf] at h
            exact Option.noConfusion h
          | some p =>
            obtain ⟨st2, result⟩ := p
            simp only [hf, Option.some.injEq, Prod.mk.injEq] at h
            rw [← h.1, ← h.2]
            exact lookupA_cons_self

/-- Memo hit: a memoized symbol is returned at once with the state
untouched. -/
theorem compute_first_memo_hit (g : Grammar) (f : Nat) (st : FirstState) (s : Symbol)
    (v : Finset Symbol) (h : lookupA st.first_sets s = some v) :
    compute_first g (f + 1) st s = some (st, v) := by
  simp [compute_first, h]

/-- Joint fuel induction: the three mutually recursive FIRST computations
only extend the memo. -/
theorem first_memo_ext (g : Grammar) :
    ∀ f : Nat,
      (∀ st s st' v, compute_first g f st s = some (st', v) → MemoExt st st') ∧
      (∀ st sym ps acc st' r, foldProds g f st sym ps acc = some (st', r) → MemoExt st st') ∧
      (∀ st sym l acc st' r b, scanSyms g f st sym l acc = some (st', r, b) →
        MemoExt st st') := by
  intro f
  induction f with
  | zero =>
    refine ⟨?_, ?_, ?_⟩
    · intro st s st' v h
      exact Option.noConfusion h
    · intro st sym ps acc st' r h
      exact Option.noConfusion h
    · intro st sym l acc st' r b h
      exact Option.noConfusion h
  | succ f ih =>
    obtain ⟨ihc, ihf, ihs⟩ := ih
    refine ⟨?_, ?_, ?_⟩
    · intro st s st' v h
      simp only [compute_first] at h
      cases hm : lookupA st.first_sets s with
      | some w =>
        simp only [hm, Option.some.injEq, Prod.mk.injEq] at h
        rw [← h.1]
        exact MemoExt.refl st
      | none =>
        simp only [hm] at h
        by_cases ht : s ∈ terminalsOf g ∨ s = EPSILON
        · rw [if_pos ht] at h
          simp only [Option.some.injEq, Prod.mk.injEq] at h
          rw [← h.1]
          exact fun k w hk => lookupA_cons_preserve hm hk
        · rw [if_neg ht] at h
          by_cases hu : (lookupA g.prods s).isNone = true
          · rw [if_pos hu] at h
            simp only [Option.some.injEq, Prod.mk.injEq] at h
            rw [← h.1]
            exact fun k w hk => lookupA_cons_preserve hm hk
          · rw [if_neg hu] at h
            cases hf : foldProds g f st s ((lookupA g.prods s).getD []) ∅ with
            | none =>
              simp only [hf] at h
              exact Option.noConfusion h
            | some p =>
              obtain ⟨st2, result⟩ := p
              simp only [hf, Option.some.injEq, Prod.mk.injEq] at h
              rw [← h.1]
              have h2 : MemoExt st st2 := ihf st s _ ∅ st2 result hf
              have hm2 : lookupA st2.first_sets s = none ∨
                  ∃ u, lookupA st2.first_sets s = some u := by
                cases hx : lookupA st2.first_sets s with
                | none => exact Or.inl rfl
                | some u => exact Or.inr ⟨u, rfl⟩
              intro k w hk
              have hk2 := h2 k w hk
              simp only [lookupA]
              by_cases hks : k = s
              · subst hks
                rw [hm] at hk
                exact Option.noConfusion hk
              · rw [if_neg hks]
                exact hk2
    · intro st sym ps acc st' r h
      cases ps with
      | nil =>
        simp only [foldProds, Option.some.injEq, Prod.mk.injEq] at h
        rw [← h.1]
        exact MemoExt.refl st
      | cons production rest =>
        simp only [foldProds] at h
        by_cases hp : production = []
        · rw [if_pos hp] at h
          exact ihf st sym rest _ st' r h
        · rw [if_neg hp] at h
          cases hs : scanSyms g f st sym production acc with
          | none =>
            simp only [hs] at h
            exact Option.noConfusion h
          | some t =>
            obtain ⟨st1, r1, b1⟩ := t
            simp only [hs] at h
            exact (ihs st sym production acc st1 r1 b1 hs).trans
              (ihf st1 sym rest _ st' r h)
    · intro st sym l acc st' r b h
      cases l with
      | nil =>
        simp only [scanSyms, Option.some.injEq, Prod.mk.injEq] at h
        rw [← h.1]
        exact MemoExt.refl st
      | cons x rest =>
        simp only [scanSyms] at h
        by_cases hx : x = sym
        · rw [if_pos hx] at h
          simp only [Option.some.injEq, Prod.mk.injEq] at h
          rw [← h.1]
          exact MemoExt.refl st
        · rw [if_neg hx] at h
          cases hc : compute_first g f st x with
          | none =>
            simp only [hc] at h
            exact Option.noConfusion h
          | some p =>
            obtain ⟨st1, S⟩ := p
            simp only [hc] at h
            have h1 : MemoExt st st1 := ihc st x st1 S hc
            by_cases hmem : EPSILON ∈ S
            · rw [if_pos hmem] at h
              exact h1.trans (ihs st1 sym rest _ st' r b h)
            · rw [if_neg hmem] at h
              simp only [Option.some.injEq, Prod.mk.injEq] at h
              rw [← h.1]
              exact h1

end MemoLemmas

end FF

namespace FF

section SequenceStability

theorem firstSeqAux_memo_ext (g : Grammar) (F : Nat) :
    ∀ (l : List Symbol) (st : FirstState) (acc : Finset Symbol) (st' : FirstState)
      (r : Finset Symbol) (b : Bool),
      firstSeqAux g F st l acc = some (st', r, b) → MemoExt st st'
  | [], st, acc, st', r, b => by
    intro h
    simp only [firstSeqAux, Option.some.injEq, Prod.mk.injEq] at h
    rw [← h.1]
    exact MemoExt.refl st
  | sym :: rest, st, acc, st', r, b => by
    intro h
    cases hc : compute_first g F st sym with
    | none =>
      simp only [firstSeqAux, hc] at h
      exact Option.noConfusion h
    | some p =>
      obtain ⟨st1, S⟩ := p
      simp only [firstSeqAux, hc] at h
      have h1 : MemoExt st st1 := (first_memo_ext g F).1 st sym st1 S hc
      by_cases hm : EPSILON ∈ S
      · rw [if_pos hm] at h
        exact h1.trans (firstSeqAux_memo_ext g F rest st1 _ st' r b h)
      · rw [if_neg hm] at h
        simp only [Option.some.injEq, Prod.mk.injEq] at h
        rw [← h.1]
        exact h1

theorem first_of_sequence_memo_ext (g : Grammar) (F : Nat) (st : FirstState)
    (sequence : List Symbol) (start : Nat) (st' : FirstState) (R : Finset Symbol)
    (h : first_of_sequence g F st sequence start = some (st', R)) : MemoExt st st' := by
  cases haux : firstSeqAux g F st (sequence.drop start) ∅ with
  | none =>
    simp only [first_of_sequence, haux] at h
    exact Option.noConfusion h
  | some p =>
    obtain ⟨st0, r0, b0⟩ := p
    simp only [first_of_sequence, haux, Option.some.injEq, Prod.mk.injEq] at h
    rw [← h.1]
    exact firstSeqAux_memo_ext g F (sequence.drop start) st ∅ st0 r0 b0 haux

/-- Re-running the sequence scan from any state extending the scan's final
memo reproduces the same set and flag, with the state untouched (every
FIRST query is then a memo hit). -/
theorem firstSeqAux_stable (g : Grammar) (F : Nat) :
    ∀ (l : List Symbol) (st : FirstState) (acc : Finset Symbol) (st' : FirstState)
      (r : Finset Symbol) (b : Bool),
      firstSeqAux g F st l acc = some (st', r, b) →
      ∀ w, MemoExt st' w → firstSeqAux g F w l acc = some (w, r, b)
  | [], st, acc, st', r, b => by
    intro h w _
    simp only [firstSeqAux, Option.some.injEq, Prod.mk.injEq] at h
    simp [firstSeqAux, h.2.1, h.2.2]
  | sym :: rest, st, acc, st', r, b => by
    intro h w hw
    cases F with
    | zero =>
      simp only [firstSeqAux, compute_first] at h
      exact Option.noConfusion h
    | succ f =>
      cases hc : compute_first g (f + 1) st sym with
      | none =>
        simp only [firstSeqAux, hc] at h
        exact Option.noConfusion h
      | some p =>
        obtain ⟨st1, S⟩ := p
        simp only [firstSeqAux, hc] at h
        have hmemoized : lookupA st1.first_sets sym = some S :=
          compute_first_memoizes g (f + 1) st sym st1 S hc
        by_cases hm : EPSILON ∈ S
        · rw [if_pos hm] at h
          have hrest_ext : MemoExt st1 st' := firstSeqAux_memo_ext g (f + 1) rest st1 _ st' r b h
          have hsym_w : lookupA w.first_sets sym = some S :=
            hw sym S (hrest_ext sym S hmemoized)
          have hhit := compute_first_memo_hit g f w sym S hsym_w
          simp only [firstSeqAux, hhit]
          rw [if_pos hm]
          exact firstSeqAux_stable g (f + 1) rest st1 _ st' r b h w hw
        · rw [if_neg hm] at h
          simp only [Option.some.injEq, Prod.mk.injEq] at h
          obtain ⟨h1, h2, h3⟩ := h
          have hsym_w : lookupA w.first_sets sym = some S :=
            hw sym S (h1 ▸ hmemoized)
          have hhit := compute_first_memo_hit g f w sym S hsym_w
          simp only [firstSeqAux, hhit]
          rw [if_neg hm]
          rw [h2, h3]

theorem first_of_sequence_stable (g : Grammar) (F : Nat) (st : FirstState)
    (sequence : List Symbol) (start : Nat) (st' : FirstState) (R : Finset Symbol)
    (h : first_of_sequence g F st sequence start = some (st', R)) :
    ∀ w, MemoExt st' w → first_of_sequence g F w sequence start = some (w, R) := by
  intro w hw
  cases haux : firstSeqAux g F st (sequence.drop start) ∅ with
  | none =>
    simp only [first_of_sequence, haux] at h
    exact Option.noConfusion h
  | some p =>
    obtain ⟨st0, r0, b0⟩ := p
    simp only [first_of_sequence, haux, Option.some.injEq, Prod.mk.injEq] at h
    obtain ⟨h1, h2⟩ := h
    have hst : firstSeqAux g F w (sequence.drop start) ∅ = some (w, r0, b0) :=
      firstSeqAux_stable g F (sequence.drop start) st ∅ st0 r0 b0 haux w (h1 ▸ hw)
    simp only [first_of_sequence, hst, h2]

end SequenceStability

end FF

namespace FF

section FollowStability

theorem followPos_memo_ext (g : Grammar) (F : Nat) (lhs : Symbol) (prod : List Symbol) :
    ∀ (l : List (Nat × Symbol)) (st : FirstState) (fs : FollowSets) (ch : Bool)
      (st' : FirstState) (fs' : FollowSets) (ch' : Bool),
      followPos g F lhs prod st fs l ch = some (st', fs', ch') → MemoExt st st'
  | [], st, fs, ch, st', fs', ch' => by
    intro h
    simp only [followPos, Option.some.injEq, Prod.mk.injEq] at h
    rw [← h.1]
    exact MemoExt.refl st
  | (i, symbol) :: rest, st, fs, ch, st', fs', ch' => by
    intro h
    simp only [followPos] at h
    by_cases hg : memS symbol g.nts = false
    · rw [if_pos hg] at h
      exact followPos_memo_ext g F lhs prod rest st fs ch st' fs' ch' h
    · rw [if_neg hg] at h
      by_cases hlen : i + 1 < prod.length
      · rw [if_pos hlen] at h
        cases hseq : first_of_sequence g F st prod (i + 1) with
        | none =>
          simp only [hseq] at h
          exact Option.noConfusion h
        | some p =>
          obtain ⟨st1, firstBeta⟩ := p
          simp only [hseq] at h
          exact (first_of_sequence_memo_ext g F st prod (i + 1) st1 firstBeta hseq).trans
            (followPos_memo_ext g F lhs prod rest st1 _ _ st' fs' ch' h)
      · rw [if_neg hlen] at h
        exact followPos_memo_ext g F lhs prod rest st _ _ st' fs' ch' h

theorem followProds_memo_ext (g : Grammar) (F : Nat) (lhs : Symbol) :
    ∀ (ps : List (List Symbol)) (st : FirstState) (fs : FollowSets) (ch : Bool)
      (st' : FirstState) (fs' : FollowSets) (ch' : Bool),
      followProds g F lhs st fs ps ch = some (st', fs', ch') → MemoExt st st'
  | [], st, fs, ch, st', fs', ch' => by
    intro h
    simp only [followProds, Option.some.injEq, Prod.mk.injEq] at h
    rw [← h.1]
    exact MemoExt.refl st
  | prod :: rest, st, fs, ch, st', fs', ch' => by
    intro h
    simp only [followProds] at h
    cases hp : followPos g F lhs prod st fs prod.enum ch with
    | none =>
      simp only [hp] at h
      exact Option.noConfusion h
    | some t =>
      obtain ⟨st1, fs1, ch1⟩ := t
      simp only [hp] at h
      exact (followPos_memo_ext g F lhs prod prod.enum st fs ch st1 fs1 ch1 hp).trans
        (followProds_memo_ext g F lhs rest st1 fs1 ch1 st' fs' ch' h)

theorem followPass_memo_ext (g : Grammar) (F : Nat) :
    ∀ (gl : List (Symbol × List (List Symbol))) (st : FirstState) (fs : FollowSets)
      (ch : Bool) (st' : FirstState) (fs' : FollowSets) (ch' : Bool),
      followPass g F st fs gl ch = some (st', fs', ch') → MemoExt st st'
  | [], st, fs, ch, st', fs', ch' => by
    intro h
    simp only [followPass, Option.some.injEq, Prod.mk.injEq] at h
    rw [← h.1]
    exact MemoExt.refl st
  | (lhs, productions) :: rest, st, fs, ch, st', fs', ch' => by
    intro h
    simp only [followPass] at h
    cases hp : followProds g F lhs st fs productions ch with
    | none =>
      simp only [hp] at h
      exact Option.noConfusion h
    | some t =>
      obtain ⟨st1, fs1, ch1⟩ := t
      simp only [hp] at h
      exact (followProds_memo_ext g F lhs productions st fs ch st1 fs1 ch1 hp).trans
        (followPass_memo_ext g F rest st1 fs1 ch1 st' fs' ch' h)

theorem followLoop_memo_ext (g : Grammar) (F : Nat) :
    ∀ (N : Nat) (st : FirstState) (fs : FollowSets) (r : FirstState × FollowSets),
      followLoop g F N st fs = some r → MemoExt st r.1
  | 0, st, fs, r => by
    intro h
    simp only [followLoop] at h
    exact Option.noConfusion h
  | Nat.succ N, st, fs, r => by
    intro h
    simp only [followLoop] at h
    cases hp : followPass g F st fs g.prods false with
    | none =>
      simp only [hp] at h
      exact Option.noConfusion h
    | some t =>
      obtain ⟨st1, fs1, c⟩ := t
      simp only [hp] at h
      have h1 := followPass_memo_ext g F g.prods st fs false st1 fs1 c hp
      cases c with
      | true =>
        rw [if_pos rfl] at h
        exact h1.trans (followLoop_memo_ext g F N st1 fs1 r h)
      | false =>
        rw [if_neg Bool.false_ne_true] at h
        simp only [Option.some.injEq] at h
        rw [← h]
        exact h1

/-- Re-running one position loop from any state extending the loop's final
memo reproduces the identical FOLLOW updates and flag, leaving the first
state untouched. -/
theorem followPos_stable (g : Grammar) (F : Nat) (lhs : Symbol) (prod : List Symbol) :
    ∀ (l : List (Nat × Symbol)) (st : FirstState) (fs : FollowSets) (ch : Bool)
      (st' : FirstState) (fs' : FollowSets) (ch' : Bool),
      followPos g F lhs prod st fs l ch = some (st', fs', ch') →
      ∀ w, MemoExt st' w → followPos g F lhs prod w fs l ch = some (w, fs', ch')
  | [], st, fs, ch, st', fs', ch' => by
    intro h w _
    simp only [followPos, Option.some.injEq, Prod.mk.injEq] at h
    simp [followPos, h.2.1, h.2.2]
  | (i, symbol) :: rest, st, fs, ch, st', fs', ch' => by
    intro h w hw
    simp only [followPos] at h ⊢
    by_cases hg : memS symbol g.nts = false
    · rw [if_pos hg] at h ⊢
      exact followPos_stable g F lhs prod rest st fs ch st' fs' ch' h w hw
    · rw [if_neg hg] at h ⊢
      by_cases hlen : i + 1 < prod.length
      · rw [if_pos hlen] at h ⊢
        cases hseq : first_of_sequence g F st prod (i + 1) with
        | none =>
          simp only [hseq] at h
          exact Option.noConfusion h
        | some p =>
          obtain ⟨st1, firstBeta⟩ := p
          simp only [hseq] at h
          have hrest_ext : MemoExt st1 st' :=
            followPos_memo_ext g F lhs prod rest st1 _ _ st' fs' ch' h
          have hseq_w : first_of_sequence g F w prod (i + 1) = some (w, firstBeta) :=
            first_of_sequence_stable g F st prod (i + 1) st1 firstBeta hseq w
              (hrest_ext.trans hw)
          simp only [hseq_w]
          exact followPos_stable g F lhs prod rest st1 _ _ st' fs' ch' h w hw
      · rw [if_neg hlen] at h ⊢
        exact followPos_stable g F lhs prod rest st _ _ st' fs' ch' h w hw

/-- As `followPos_stable`, but with an arbitrary FOLLOW map and flag: the
positions scanned, the FIRST queries made, and the final first state do
not depend on the FOLLOW map. -/
theorem followPos_stable_any (g : Grammar) (F : Nat) (lhs : Symbol) (prod : List Symbol) :
    ∀ (l : List (Nat × Symbol)) (st : FirstState) (fs : FollowSets) (ch : Bool)
      (st' : FirstState) (fs' : FollowSets) (ch' : Bool),
      followPos g F lhs prod st fs l ch = some (st', fs', ch') →
      ∀ w, MemoExt st' w → ∀ (fs₂ : FollowSets) (ch₂ : Bool),
        ∃ fs₂' ch₂', followPos g F lhs prod w fs₂ l ch₂ = some (w, fs₂', ch₂')
  | [], st, fs, ch, st', fs', ch' => by
    intro _ w _ fs₂ ch₂
    exact ⟨fs₂, ch₂, rfl⟩
  | (i, symbol) :: rest, st, fs, ch, st', fs', ch' => by
    intro h w hw fs₂ ch₂
    simp only [followPos] at h ⊢
    by_cases hg : memS symbol g.nts = false
    · rw [if_pos hg] at h ⊢
      exact followPos_stable_any g F lhs prod rest st fs ch st' fs' ch' h w hw fs₂ ch₂
    · rw [if_neg hg] at h ⊢
      by_cases hlen : i + 1 < prod.length
      · rw [if_pos hlen] at h ⊢
        cases hseq : first_of_sequence g F st prod (i + 1) with
        | none =>
          simp only [hseq] at h
          exact Option.noConfusion h
        | some p =>
          obtain ⟨st1, firstBeta⟩ := p
          simp only [hseq] at h
          have hrest_ext : MemoExt st1 st' :=
            followPos_memo_ext g F lhs prod rest st1 _ _ st' fs' ch' h
          have hseq_w : first_of_sequence g F w prod (i + 1) = some (w, firstBeta) :=
            first_of_sequence_stable g F st prod (i + 1) st1 firstBeta hseq w
              (hrest_ext.trans hw)
          simp only [hseq_w]
          exact followPos_stable_any g F lhs prod rest st1 _ _ st' fs' ch' h w hw _ _
      · rw [if_neg hlen] at h ⊢
        exact followPos_stable_any g F lhs prod rest st _ _ st' fs' ch' h w hw _ _

theorem followProds_stable (g : Grammar) (F : Nat) (lhs : Symbol) :
    ∀ (ps : List (List Symbol)) (st : FirstState) (fs : FollowSets) (ch : Bool)
      (st' : FirstState) (fs' : FollowSets) (ch' : Bool),
      followProds g F lhs st fs ps ch = some (st', fs', ch') →
      ∀ w, MemoExt st' w → followProds g F lhs w fs ps ch = some (w, fs', ch')
  | [], st, fs, ch, st', fs', ch' => by
    intro h w _
    simp only [followProds, Option.some.injEq, Prod.mk.injEq] at h
    simp [followProds, h.2.1, h.2.2]
  | prod :: rest, st, fs, ch, st', fs', ch' => by
    intro h w hw
    simp only [followProds] at h ⊢
    cases hp : followPos g F lhs prod st fs prod.enum ch with
    | none =>
      simp only [hp] at h
      exact Option.noConfusion h
    | some t =>
      obtain ⟨st1, fs1, ch1⟩ := t
      simp only [hp] at h
      have hrest_ext : MemoExt st1 st' :=
        followProds_memo_ext g F lhs rest st1 fs1 ch1 st' fs' ch' h
      have hp_w := followPos_stable g F lhs prod prod.enum st fs ch st1 fs1 ch1 hp w
        (hrest_ext.trans hw)
      simp only [hp_w]
      exact followProds_stable g F lhs rest st1 fs1 ch1 st' fs' ch' h w hw

theorem followProds_stable_any (g : Grammar) (F : Nat) (lhs : Symbol) :
    ∀ (ps : List (List Symbol)) (st : FirstState) (fs : FollowSets) (ch : Bool)
      (st' : FirstState) (fs' : FollowSets) (ch' : Bool),
      followProds g F lhs st fs ps ch = some (st', fs', ch') →
      ∀ w, MemoExt st' w → ∀ (fs₂ : FollowSets) (ch₂ : Bool),
        ∃ fs₂' ch₂', followProds g F lhs w fs₂ ps ch₂ = some (w, fs₂', ch₂')
  | [], st, fs, ch, st', fs', ch' => by
    intro _ w _ fs₂ ch₂
    exact ⟨fs₂, ch₂, rfl⟩
  | prod :: rest, st, fs, ch, st', fs', ch' => by
    intro h w hw fs₂ ch₂
    simp only [followProds] at h ⊢
    cases hp : followPos g F lhs prod st fs prod.enum ch with
    | none =>
      simp only [hp] at h
      exact Option.noConfusion h
    | some t =>
      obtain ⟨st1, fs1, ch1⟩ := t
      simp only [hp] at h
      have hrest_ext : MemoExt st1 st' :=
        followProds_memo_ext g F lhs rest st1 fs1 ch1 st' fs' ch' h
      obtain ⟨fsx, chx, hx⟩ :=
        followPos_stable_any g F lhs prod prod.enum st fs ch st1 fs1 ch1 hp w
          (hrest_ext.trans hw) fs₂ ch₂
      simp only [hx]
      exact followProds_stable_any g F lhs rest st1 fs1 ch1 st' fs' ch' h w hw fsx chx

theorem followPass_stable (g : Grammar) (F : Nat) :
    ∀ (gl : List (Symbol × List (List Symbol))) (st : FirstState) (fs : FollowSets)
      (ch : Bool) (st' : FirstState) (fs' : FollowSets) (ch' : Bool),
      followPass g F st fs gl ch = some (st', fs', ch') →
      ∀ w, MemoExt st' w → followPass g F w fs gl ch = some (w, fs', ch')
  | [], st, fs, ch, st', fs', ch' => by
    intro h w _
    simp only [followPass, Option.some.injEq, Prod.mk.injEq] at h
    simp [followPass, h.2.1, h.2.2]
  | (lhs, productions) :: rest, st, fs, ch, st', fs', ch' => by
    intro h w hw
    simp only [followPass] at h ⊢
    cases hp : followProds g F lhs st fs productions ch with
    | none =>
      simp only [hp] at h
      exact Option.noConfusion h
    | some t =>
      obtain ⟨st1, fs1, ch1⟩ := t
      simp only [hp] at h
      have hrest_ext : MemoExt st1 st' :=
        followPass_memo_ext g F rest st1 fs1 ch1 st' fs' ch' h
      have hp_w := followProds_stable g F lhs productions st fs ch st1 fs1 ch1 hp w
        (hrest_ext.trans hw)
      simp only [hp_w]
      exact followPass_stable g F rest st1 fs1 ch1 st' fs' ch' h w hw

theorem followPass_stable_any (g : Grammar) (F : Nat) :
    ∀ (gl : List (Symbol × List (List Symbol))) (st : FirstState) (fs : FollowSets)
      (ch : Bool) (st' : FirstState) (fs' : FollowSets) (ch' : Bool),
      followPass g F st fs gl ch = some (st', fs', ch') →
      ∀ w, MemoExt st' w → ∀ (fs₂ : FollowSets) (ch₂ : Bool),
        ∃ fs₂' ch₂', followPass g F w fs₂ gl ch₂ = some (w, fs₂', ch₂')
  | [], st, fs, ch, st', fs', ch' => by
    intro _ w _ fs₂ ch₂
    exact ⟨fs₂, ch₂, rfl⟩
  | (lhs, productions) :: rest, st, fs, ch, st', fs', ch' => by
    intro h w hw fs₂ ch₂
    simp only [followPass] at h ⊢
    cases hp : followProds g F lhs st fs productions ch with
    | none =>
      simp only [hp] at h
      exact Option.noConfusion h
    | some t =>
      obtain ⟨st1, fs1, ch1⟩ := t
      simp only [hp] at h
      have hrest_ext : MemoExt st1 st' :=
        followPass_memo_ext g F rest st1 fs1 ch1 st' fs' ch' h
      obtain ⟨fsx, chx, hx⟩ :=
        followProds_stable_any g F lhs productions st fs ch st1 fs1 ch1 hp w
          (hrest_ext.trans hw) fs₂ ch₂
      simp only [hx]
      exact followPass_stable_any g F rest st1 fs1 ch1 st' fs' ch' h w hw fsx chx

end FollowStability

end FF

namespace FF

section GoodMemoLemmas


theorem GoodMemo.cons {g : Grammar} {st : FirstState} {s : Symbol} {x : Finset Symbol}
    {d : List String} (hst : GoodMemo g st) (hx : x ⊆ terminalsOf g ∪ {EPSILON}) :
    GoodMemo g ⟨(s, x) :: st.first_sets, d⟩ := by
  intro k v h
  simp only [lookupA] at h
  by_cases hk : k = s
  · rw [if_pos hk] at h
    simp only [Option.some.injEq] at h
    rw [← h]
    exact hx
  · rw [if_neg hk] at h
    exact hst k v h

/-- Joint fuel induction: every FIRST set computed by the three mutually
recursive functions is a set of terminals and `EPSILON`, and the memo
stays that way. -/
theorem first_values_good (g : Grammar) :
    ∀ f : Nat,
      (∀ st s st' v, GoodMemo g st → compute_first g f st s = some (st', v) →
        GoodMemo g st' ∧ v ⊆ terminalsOf g ∪ {EPSILON}) ∧
      (∀ st sym ps acc st' r, GoodMemo g st → acc ⊆ terminalsOf g ∪ {EPSILON} →
        foldProds g f st sym ps acc = some (st', r) →
        GoodMemo g st' ∧ r ⊆ terminalsOf g ∪ {EPSILON}) ∧
      (∀ st sym l acc st' r b, GoodMemo g st → acc ⊆ terminalsOf g ∪ {EPSILON} →
        scanSyms g f st sym l acc = some (st', r, b) →
        GoodMemo g st' ∧ r ⊆ terminalsOf g ∪ {EPSILON}) := by
  intro f
  induction f with
  | zero =>
    refine ⟨?_, ?_, ?_⟩
    · intro st s st' v _ h
      exact Option.noConfusion h
    · intro st sym ps acc st' r _ _ h
      exact Option.noConfusion h
    · intro st sym l acc st' r b _ _ h
      exact Option.noConfusion h
  | succ f ih =>
    obtain ⟨ihc, ihf, ihs⟩ := ih
    refine ⟨?_, ?_, ?_⟩
    · intro st s st' v hst h
      simp only [compute_first] at h
      cases hm : lookupA st.first_sets s with
      | some w =>
        simp only [hm, Option.some.injEq, Prod.mk.injEq] at h
        rw [← h.1, ← h.2]
        exact ⟨hst, hst s w hm⟩
      | none =>
        simp only [hm] at h
        by_cases ht : s ∈ terminalsOf g ∨ s = EPSILON
        · rw [if_pos ht] at h
          simp only [Option.some.injEq, Prod.mk.injEq] at h
          have hsub : ({s} : Finset Symbol) ⊆ terminalsOf g ∪ {EPSILON} := by
            rw [Finset.singleton_subset_iff, Finset.mem_union]
            rcases ht with ht | ht
            · exact Or.inl ht
            · exact Or.inr (Finset.mem_singleton.mpr ht)
          rw [← h.1, ← h.2]
          exact ⟨hst.cons hsub, hsub⟩
        · rw [if_neg ht] at h
          by_cases hu : (lookupA g.prods s).isNone = true
          · rw [if_pos hu] at h
            simp only [Option.some.injEq, Prod.mk.injEq] at h
            rw [← h.1, ← h.2]
            exact ⟨hst.cons (Finset.empty_subset _), Finset.empty_subset _⟩
          · rw [if_neg hu] at h
            cases hf : foldProds g f st s ((lookupA g.prods s).getD []) ∅ with
            | none =>
              simp only [hf] at h
              exact Option.noConfusion h
            | some p =>
              obtain ⟨st2, result⟩ := p
              simp only [hf, Option.some.injEq, Prod.mk.injEq] at h
              have h2 := ihf st s _ ∅ st2 result hst (Finset.empty_subset _) hf
              rw [← h.1, ← h.2]
              exact ⟨h2.1.cons h2.2, h2.2⟩
    · intro st sym ps acc st' r hst hacc h
      cases ps with
      | nil =>
        simp only [foldProds, Option.some.injEq, Prod.mk.injEq] at h
        rw [← h.1, ← h.2]
        exact ⟨hst, hacc⟩
      | cons production rest =>
        simp only [foldProds] at h
        have hEpsU : EPSILON ∈ terminalsOf g ∪ {EPSILON} :=
          Finset.mem_union_right _ (Finset.mem_singleton_self _)
        by_cases hp : production = []
        · rw [if_pos hp] at h
          exact ihf st sym rest _ st' r hst (Finset.insert_subset hEpsU hacc) h
        · rw [if_neg hp] at h
          cases hs : scanSyms g f st sym production acc with
          | none =>
            simp only [hs] at h
            exact Option.noConfusion h
          | some t =>
            obtain ⟨st1, r1, b1⟩ := t
            simp only [hs] at h
            have h1 := ihs st sym production acc st1 r1 b1 hst hacc hs
            have hstep : (if b1 then insert EPSILON r1 else r1) ⊆
                terminalsOf g ∪ {EPSILON} := by
              cases b1 with
              | true => exact Finset.insert_subset hEpsU h1.2
              | false => exact h1.2
            exact ihf st1 sym rest _ st' r h1.1 hstep h
    · intro st sym l acc st' r b hst hacc h
      cases l with
      | nil =>
        simp only [scanSyms, Option.some.injEq, Prod.mk.injEq] at h
        rw [← h.1, ← h.2.1]
        exact ⟨hst, hacc⟩
      | cons x rest =>
        simp only [scanSyms] at h
        by_cases hx : x = sym
        · rw [if_pos hx] at h
          simp only [Option.some.injEq, Prod.mk.injEq] at h
          rw [← h.1, ← h.2.1]
          exact ⟨hst, hacc⟩
        · rw [if_neg hx] at h
          cases hc : compute_first g f st x with
          | none =>
            simp only [hc] at h
            exact Option.noConfusion h
          | some p =>
            obtain ⟨st1, S⟩ := p
            simp only [hc] at h
            have h1 := ihc st x st1 S hst hc
            have hacc' : acc ∪ S.erase EPSILON ⊆ terminalsOf g ∪ {EPSILON} :=
              Finset.union_subset hacc ((Finset.erase_subset _ _).trans h1.2)
            by_cases hmem : EPSILON ∈ S
            · rw [if_pos hmem] at h
              exact ihs st1 sym rest _ st' r b h1.1 hacc' h
            · rw [if_neg hmem] at h
              simp only [Option.some.injEq, Prod.mk.injEq] at h
              rw [← h.1, ← h.2.1]
              exact ⟨h1.1, hacc'⟩

theorem firstSeqAux_good (g : Grammar) (F : Nat) :
    ∀ (l : List Symbol) (st : FirstState) (acc : Finset Symbol) (st' : FirstState)
      (r : Finset Symbol) (b : Bool),
      GoodMemo g st → acc ⊆ terminalsOf g ∪ {EPSILON} →
      firstSeqAux g F st l acc = some (st', r, b) →
      GoodMemo g st' ∧ r ⊆ terminalsOf g ∪ {EPSILON}
  | [], st, acc, st', r, b => by
    intro hst hacc h
    simp only [firstSeqAux, Option.some.injEq, Prod.mk.injEq] at h
    rw [← h.1, ← h.2.1]
    exact ⟨hst, hacc⟩
  | sym :: rest, st, acc, st', r, b => by
    intro hst hacc h
    cases hc : compute_first g F st sym with
    | none =>
      simp only [firstSeqAux, hc] at h
      exact Option.noConfusion h
    | some p =>
      obtain ⟨st1, S⟩ := p
      simp only [firstSeqAux, hc] at h
      have h1 := (first_values_good g F).1 st sym st1 S hst hc
      have hacc' : acc ∪ S.erase EPSILON ⊆ terminalsOf g ∪ {EPSILON} :=
        Finset.union_subset hacc ((Finset.erase_subset _ _).trans h1.2)
      by_cases hmem : EPSILON ∈ S
      · rw [if_pos hmem] at h
        exact firstSeqAux_good g F rest st1 _ st' r b h1.1 hacc' h
      · rw [if_neg hmem] at h
        simp only [Option.some.injEq, Prod.mk.injEq] at h
        rw [← h.1, ← h.2.1]
        exact ⟨h1.1, hacc'⟩

theorem first_of_sequence_good (g : Grammar) (F : Nat) (st : FirstState)
    (sequence : List Symbol) (start : Nat) (st' : FirstState) (R : Finset Symbol)
    (hst : GoodMemo g st) (h : first_of_sequence g F st sequence start = some (st', R)) :
    GoodMemo g st' ∧ R ⊆ terminalsOf g ∪ {EPSILON} := by
  cases haux : firstSeqAux g F st (sequence.drop start) ∅ with
  | none =>
    simp only [first_of_sequence, haux] at h
    exact Option.noConfusion h
  | some p =>
    obtain ⟨st0, r0, b0⟩ := p
    simp only [first_of_sequence, haux, Option.some.injEq, Prod.mk.injEq] at h
    have h1 := firstSeqAux_good g F (sequence.drop start) st ∅ st0 r0 b0 hst
      (Finset.empty_subset _) haux
    have hEpsU : EPSILON ∈ terminalsOf g ∪ {EPSILON} :=
      Finset.mem_union_right _ (Finset.mem_singleton_self _)
    have hres : (if b0 = true then insert EPSILON r0 else r0) ⊆
        terminalsOf g ∪ {EPSILON} := by
      cases b0 with
      | true => exact Finset.insert_subset hEpsU h1.2
      | false => exact h1.2
    rw [← h.1, ← h.2]
    exact ⟨h1.1, hres⟩

end GoodMemoLemmas

end FF

namespace FF


section FollowBoundLemmas

theorem erase_eps_bound {g : Grammar} {B : Finset Symbol}
    (hB : B ⊆ terminalsOf g ∪ {EPSILON}) :
    B.erase EPSILON ⊆ terminalsOf g ∪ {END_MARKER} := by
  intro x hx
  obtain ⟨hne, hmem⟩ := Finset.mem_erase.mp hx
  rcases Finset.mem_union.mp (hB hmem) with h | h
  · exact Finset.mem_union_left _ h
  · exact absurd (Finset.mem_singleton.mp h) hne

theorem followPos_good (g : Grammar) (F : Nat) (lhs : Symbol) (prod : List Symbol) :
    ∀ (l : List (Nat × Symbol)) (st : FirstState) (fs : FollowSets) (ch : Bool)
      (st' : FirstState) (fs' : FollowSets) (ch' : Bool),
      GoodMemo g st → (∀ A, fs A ⊆ terminalsOf g ∪ {END_MARKER}) →
      followPos g F lhs prod st fs l ch = some (st', fs', ch') →
      GoodMemo g st' ∧ ∀ A, fs' A ⊆ terminalsOf g ∪ {END_MARKER}
  | [], st, fs, ch, st', fs', ch' => by
    intro hst hfs h
    simp only [followPos, Option.some.injEq, Prod.mk.injEq] at h
    rw [← h.1, ← h.2.1]
    exact ⟨hst, hfs⟩
  | (i, symbol) :: rest, st, fs, ch, st', fs', ch' => by
    intro hst hfs h
    simp only [followPos] at h
    by_cases hg : memS symbol g.nts = false
    · rw [if_pos hg] at h
      exact followPos_good g F lhs prod rest st fs ch st' fs' ch' hst hfs h
    · rw [if_neg hg] at h
      by_cases hlen : i + 1 < prod.length
      · rw [if_pos hlen] at h
        cases hseq : first_of_sequence g F st prod (i + 1) with
        | none =>
          simp only [hseq] at h
          exact Option.noConfusion h
        | some p =>
          obtain ⟨st1, firstBeta⟩ := p
          simp only [hseq] at h
          have h1 := first_of_sequence_good g F st prod (i + 1) st1 firstBeta hst hseq
          exact followPos_good g F lhs prod rest st1 _ _ st' fs' ch' h1.1
            (ruleTwoThree_bounded hfs (erase_eps_bound h1.2)) h
      · rw [if_neg hlen] at h
        exact followPos_good g F lhs prod rest st _ _ st' fs' ch' hst
          (ruleThree_bounded hfs) h

theorem followProds_good (g : Grammar) (F : Nat) (lhs : Symbol) :
    ∀ (ps : List (List Symbol)) (st : FirstState) (fs : FollowSets) (ch : Bool)
      (st' : FirstState) (fs' : FollowSets) (ch' : Bool),
      GoodMemo g st → (∀ A, fs A ⊆ terminalsOf g ∪ {END_MARKER}) →
      followProds g F lhs st fs ps ch = some (st', fs', ch') →
      GoodMemo g st' ∧ ∀ A, fs' A ⊆ terminalsOf g ∪ {END_MARKER}
  | [], st, fs, ch, st', fs', ch' => by
    intro hst hfs h
    simp only [followProds, Option.some.injEq, Prod.mk.injEq] at h
    rw [← h.1, ← h.2.1]
    exact ⟨hst, hfs⟩
  | prod :: rest, st, fs, ch, st', fs', ch' => by
    intro hst hfs h
    simp only [followProds] at h
    cases hp : followPos g F lhs prod st fs prod.enum ch with
    | none =>
      simp only [hp] at h
      exact Option.noConfusion h
    | some t =>
      obtain ⟨st1, fs1, ch1⟩ := t
      simp only [hp] at h
      have h1 := followPos_good g F lhs prod prod.enum st fs ch st1 fs1 ch1 hst hfs hp
      exact followProds_good g F lhs rest st1 fs1 ch1 st' fs' ch' h1.1 h1.2 h

theorem followPass_good (g : Grammar) (F : Nat) :
    ∀ (gl : List (Symbol × List (List Symbol))) (st : FirstState) (fs : FollowSets)
      (ch : Bool) (st' : FirstState) (fs' : FollowSets) (ch' : Bool),
      GoodMemo g st → (∀ A, fs A ⊆ terminalsOf g ∪ {END_MARKER}) →
      followPass g F st fs gl ch = some (st', fs', ch') →
      GoodMemo g st' ∧ ∀ A, fs' A ⊆ terminalsOf g ∪ {END_MARKER}
  | [], st, fs, ch, st', fs', ch' => by
    intro hst hfs h
    simp only [followPass, Option.some.injEq, Prod.mk.injEq] at h
    rw [← h.1, ← h.2.1]
    exact ⟨hst, hfs⟩
  | (lhs, productions) :: rest, st, fs, ch, st', fs', ch' => by
    intro hst hfs h
    simp only [followPass] at h
    cases hp : followProds g F lhs st fs productions ch with
    | none =>
      simp only [hp] at h
      exact Option.noConfusion h
    | some t =>
      obtain ⟨st1, fs1, ch1⟩ := t
      simp only [hp] at h
      have h1 := followProds_good g F lhs productions st fs ch st1 fs1 ch1 hst hfs hp
      exact followPass_good g F rest st1 fs1 ch1 st' fs' ch' h1.1 h1.2 h

theorem followLoop_good (g : Grammar) (F : Nat) :
    ∀ (N : Nat) (st : FirstState) (fs : FollowSets) (r : FirstState × FollowSets),
      GoodMemo g st → (∀ A, fs A ⊆ terminalsOf g ∪ {END_MARKER}) →
      followLoop g F N st fs = some r →
      ∀ A, r.2 A ⊆ terminalsOf g ∪ {END_MARKER}
  | 0, st, fs, r => by
    intro _ _ h
    exact Option.noConfusion h
  | Nat.succ N, st, fs, r => by
    intro hst hfs h
    simp only [followLoop] at h
    cases hp : followPass g F st fs g.prods false with
    | none =>
      simp only [hp] at h
      exact Option.noConfusion h
    | some t =>
      obtain ⟨st1, fs1, c⟩ := t
      simp only [hp] at h
      have h1 := followPass_good g F g.prods st fs false st1 fs1 c hst hfs hp
      cases c with
      | true =>
        rw [if_pos rfl] at h
        exact followLoop_good g F N st1 fs1 r h1.1 h1.2 h
      | false =>
        rw [if_neg Bool.false_ne_true] at h
        simp only [Option.some.injEq] at h
        rw [← h]
        exact h1.2

theorem Mfs_le_of_mono {g : Grammar} {fs fs' : FollowSets} (h : ∀ A, fs A ⊆ fs' A) :
    Mfs g fs ≤ Mfs g fs' :=
  Finset.sum_le_sum fun i _ => Finset.card_le_card (h i)

theorem Mfs_lt {g : Grammar} {fs fs' : FollowSets} (h : ∀ A, fs A ⊆ fs' A) {B : Symbol}
    (hB : memS B g.nts = true) (hcard : (fs B).card < (fs' B).card) :
    Mfs g fs < Mfs g fs' :=
  Finset.sum_lt_sum (fun i _ => Finset.card_le_card (h i))
    ⟨B, List.mem_toFinset.mpr ((memS_iff _).mp hB), hcard⟩

theorem Mfs_bound {g : Grammar} {fs : FollowSets} {U : Finset Symbol}
    (h : ∀ A, fs A ⊆ U) : Mfs g fs ≤ g.nts.toFinset.card * U.card := by
  have h1 : Mfs g fs ≤ Finset.sum g.nts.toFinset (fun _ => U.card) :=
    Finset.sum_le_sum fun i _ => Finset.card_le_card (h i)
  rwa [Finset.sum_const, smul_eq_mul] at h1

theorem followPos_changed_growth (g : Grammar) (F : Nat) (lhs : Symbol) (prod : List Symbol) :
    ∀ (l : List (Nat × Symbol)) (st : FirstState) (fs : FollowSets) (ch : Bool)
      (st' : FirstState) (fs' : FollowSets) (ch' : Bool),
      followPos g F lhs prod st fs l ch = some (st', fs', ch') →
      ch' = true → ch = true ∨ Mfs g fs < Mfs g fs'
  | [], st, fs, ch, st', fs', ch' => by
    intro h hch
    simp only [followPos, Option.some.injEq, Prod.mk.injEq] at h
    exact Or.inl (h.2.2.trans hch)
  | (i, symbol) :: rest, st, fs, ch, st', fs', ch' => by
    intro h hch
    simp only [followPos] at h
    by_cases hg : memS symbol g.nts = false
    · rw [if_pos hg] at h
      exact followPos_changed_growth g F lhs prod rest st fs ch st' fs' ch' h hch
    · rw [if_neg hg] at h
      have hmem : memS symbol g.nts = true := by
        cases hx : memS symbol g.nts with
        | false => exact absurd hx hg
        | true => rfl
      by_cases hlen : i + 1 < prod.length
      · rw [if_pos hlen] at h
        cases hseq : first_of_sequence g F st prod (i + 1) with
        | none =>
          simp only [hseq] at h
          exact Option.noConfusion h
        | some p =>
          obtain ⟨st1, firstBeta⟩ := p
          simp only [hseq] at h
          have hmono2 := followPos_mono g F lhs prod rest st1 _ _ st' fs' ch' h
          have hle2 : Mfs g (ruleTwoThree fs lhs symbol firstBeta) ≤ Mfs g fs' :=
            Mfs_le_of_mono hmono2
          rcases followPos_changed_growth g F lhs prod rest st1 _ _ st' fs' ch' h hch with
            hor | hlt
          · rcases Bool.or_eq_true_iff.mp hor with hcht | hrc
            · exact Or.inl hcht
            · refine Or.inr (Nat.lt_of_lt_of_le ?_ hle2)
              exact Mfs_lt (ruleTwoThree_apply_mono fs lhs symbol firstBeta) hmem
                (ruleTwoThreeChanged_true hrc)
          · refine Or.inr (Nat.lt_of_le_of_lt ?_ hlt)
            exact Mfs_le_of_mono (ruleTwoThree_apply_mono fs lhs symbol firstBeta)
      · rw [if_neg hlen] at h
        have hmono2 := followPos_mono g F lhs prod rest st _ _ st' fs' ch' h
        have hle2 : Mfs g (ruleThree fs lhs symbol) ≤ Mfs g fs' := Mfs_le_of_mono hmono2
        rcases followPos_changed_growth g F lhs prod rest st _ _ st' fs' ch' h hch with
          hor | hlt
        · rcases Bool.or_eq_true_iff.mp hor with hcht | hrc
          · exact Or.inl hcht
          · refine Or.inr (Nat.lt_of_lt_of_le ?_ hle2)
            exact Mfs_lt (ruleThree_apply_mono fs lhs symbol) hmem
              (ruleThreeChanged_true hrc)
        · refine Or.inr (Nat.lt_of_le_of_lt ?_ hlt)
          exact Mfs_le_of_mono (ruleThree_apply_mono fs lhs symbol)

theorem followProds_changed_growth (g : Grammar) (F : Nat) (lhs : Symbol) :
    ∀ (ps : List (List Symbol)) (st : FirstState) (fs : FollowSets) (ch : Bool)
      (st' : FirstState) (fs' : FollowSets) (ch' : Bool),
      followProds g F lhs st fs ps ch = some (st', fs', ch') →
      ch' = true → ch = true ∨ Mfs g fs < Mfs g fs'
  | [], st, fs, ch, st', fs', ch' => by
    intro h hch
    simp only [followProds, Option.some.injEq, Prod.mk.injEq] at h
    exact Or.inl (h.2.2.trans hch)
  | prod :: rest, st, fs, ch, st', fs', ch' => by
    intro h hch
    simp only [followProds] at h
    cases hp : followPos g F lhs prod st fs prod.enum ch with
    | none =>
      simp only [hp] at h
      exact Option.noConfusion h
    | some t =>
      obtain ⟨st1, fs1, ch1⟩ := t
      simp only [hp] at h
      have hle1 : Mfs g fs ≤ Mfs g fs1 :=
        Mfs_le_of_mono (followPos_mono g F lhs prod prod.enum st fs ch st1 fs1 ch1 hp)
      have hle2 : Mfs g fs1 ≤ Mfs g fs' :=
        Mfs_le_of_mono (followProds_mono g F lhs rest st1 fs1 ch1 st' fs' ch' h)
      rcases followProds_changed_growth g F lhs rest st1 fs1 ch1 st' fs' ch' h hch with
        hor | hlt
      · rcases followPos_changed_growth g F lhs prod prod.enum st fs ch st1 fs1 ch1 hp hor
          with hcht | hlt1
        · exact Or.inl hcht
        · exact Or.inr (Nat.lt_of_lt_of_le hlt1 hle2)
      · exact Or.inr (Nat.lt_of_le_of_lt hle1 hlt)

theorem followPass_changed_growth (g : Grammar) (F : Nat) :
    ∀ (gl : List (Symbol × List (List Symbol))) (st : FirstState) (fs : FollowSets)
      (ch : Bool) (st' : FirstState) (fs' : FollowSets) (ch' : Bool),
      followPass g F st fs gl ch = some (st', fs', ch') →
      ch' = true → ch = true ∨ Mfs g fs < Mfs g fs'
  | [], st, fs, ch, st', fs', ch' => by
    intro h hch
    simp only [followPass, Option.some.injEq, Prod.mk.injEq] at h
    exact Or.inl (h.2.2.trans hch)
  | (lhs, productions) :: rest, st, fs, ch, st', fs', ch' => by
    intro h hch
    simp only [followPass] at h
    cases hp : followProds g F lhs st fs productions ch with
    | none =>
      simp only [hp] at h
      exact Option.noConfusion h
    | some t =>
      obtain ⟨st1, fs1, ch1⟩ := t
      simp only [hp] at h
      have hle1 : Mfs g fs ≤ Mfs g fs1 :=
        Mfs_le_of_mono (followProds_mono g F lhs productions st fs ch st1 fs1 ch1 hp)
      have hle2 : Mfs g fs1 ≤ Mfs g fs' :=
        Mfs_le_of_mono (followPass_mono g F rest st1 fs1 ch1 st' fs' ch' h)
      rcases followPass_changed_growth g F rest st1 fs1 ch1 st' fs' ch' h hch with
        hor | hlt
      · rcases followProds_changed_growth g F lhs productions st fs ch st1 fs1 ch1 hp hor
          with hcht | hlt1
        · exact Or.inl hcht
        · exact Or.inr (Nat.lt_of_lt_of_le hlt1 hle2)
      · exact Or.inr (Nat.lt_of_le_of_lt hle1 hlt)

theorem followProds_changed_false (g : Grammar) (F : Nat) (lhs : Symbol) :
    ∀ (ps : List (List Symbol)) (st : FirstState) (fs : FollowSets) (ch : Bool)
      (st' : FirstState) (fs' : FollowSets),
      followProds g F lhs st fs ps ch = some (st', fs', false) → ch = false ∧ fs' = fs
  | [], st, fs, ch, st', fs' => by
    intro h
    simp only [followProds, Option.some.injEq, Prod.mk.injEq] at h
    exact ⟨h.2.2, h.2.1.symm⟩
  | prod :: rest, st, fs, ch, st', fs' => by
    intro h
    simp only [followProds] at h
    cases hp : followPos g F lhs prod st fs prod.enum ch with
    | none =>
      simp only [hp] at h
      exact Option.noConfusion h
    | some t =>
      obtain ⟨st1, fs1, ch1⟩ := t
      simp only [hp] at h
      have ih := followProds_changed_false g F lhs rest st1 fs1 ch1 st' fs' h
      have h1 := followPos_changed_false g F lhs prod prod.enum st fs ch st1 fs1
        (ih.1 ▸ hp)
      exact ⟨h1.1, by rw [ih.2, h1.2]⟩

theorem followPass_changed_false (g : Grammar) (F : Nat) :
    ∀ (gl : List (Symbol × List (List Symbol))) (st : FirstState) (fs : FollowSets)
      (ch : Bool) (st' : FirstState) (fs' : FollowSets),
      followPass g F st fs gl ch = some (st', fs', false) → ch = false ∧ fs' = fs
  | [], st, fs, ch, st', fs' => by
    intro h
    simp only [followPass, Option.some.injEq, Prod.mk.injEq] at h
    exact ⟨h.2.2, h.2.1.symm⟩
  | (lhs, productions) :: rest, st, fs, ch, st', fs' => by
    intro h
    simp only [followPass] at h
    cases hp : followProds g F lhs st fs productions ch with
    | none =>
      simp only [hp] at h
      exact Option.noConfusion h
    | some t =>
      obtain ⟨st1, fs1, ch1⟩ := t
      simp only [hp] at h
      have ih := followPass_changed_false g F rest st1 fs1 ch1 st' fs' h
      have h1 := followProds_changed_false g F lhs productions st fs ch st1 fs1
        (ih.1 ▸ hp)
      exact ⟨h1.1, by rw [ih.2, h1.2]⟩

end FollowBoundLemmas

end FF

namespace FF

section Claims5

/-- Unfolding equation for one iteration of the `while changed` loop. -/
theorem followLoop_succ (g : Grammar) (F : Nat) (n : Nat) (st : FirstState)
    (fs : FollowSets) :
    followLoop g F (n + 1) st fs =
      match followPass g F st fs g.prods false with
      | none => none
      | some (st', fs', changed) =>
        if changed then followLoop g F n st' fs' else some (st', fs') := rfl

/-- Core of the termination argument: from a state whose FIRST memo is
stable for the pass (the pass returns the same first state), the loop
reaches a changeless pass because each changed pass strictly grows the
finite, bounded measure `Mfs`. -/
theorem followLoop_term_aux (g : Grammar) (F : Nat) (st1 : FirstState)
    (Hgood : GoodMemo g st1)
    (Hpass : ∀ fs : FollowSets,
      ∃ fs' c, followPass g F st1 fs g.prods false = some (st1, fs', c)) :
    ∀ (k : Nat) (fs : FollowSets), (∀ A, fs A ⊆ terminalsOf g ∪ {END_MARKER}) →
      g.nts.toFinset.card * (terminalsOf g ∪ {END_MARKER}).card < k + Mfs g fs →
      ∃ r, followLoop g F k st1 fs = some r
  | 0, fs => by
    intro hfs hk
    have hb : Mfs g fs ≤ g.nts.toFinset.card * (terminalsOf g ∪ {END_MARKER}).card :=
      Mfs_bound hfs
    omega
  | Nat.succ k, fs => by
    intro hfs hk
    obtain ⟨fs', c, hp⟩ := Hpass fs
    have hgood' := followPass_good g F g.prods st1 fs false st1 fs' c Hgood hfs hp
    cases c with
    | false =>
      refine ⟨(st1, fs'), ?_⟩
      simp only [followLoop, hp]
      rw [if_neg Bool.false_ne_true]
    | true =>
      have hgrow : Mfs g fs < Mfs g fs' := by
        rcases followPass_changed_growth g F g.prods st1 fs false st1 fs' true hp rfl with
          h | h
        · exact absurd h (by simp)
        · exact h
      obtain ⟨r, hr⟩ := followLoop_term_aux g F st1 Hgood Hpass k fs' hgood'.2 (by omega)
      refine ⟨r, ?_⟩
      rw [followLoop_succ, hp]
      dsimp only
      rw [if_pos rfl]
      exact hr

/-- C7: whenever the FIRST computations performed by one FOLLOW pass
terminate (the first full pass returns), the `while changed` loop of
`compute_follow` terminates: FOLLOW sets only grow from the seeded state,
every element ever added is drawn from the finite set
`terminals ∪ {END_MARKER}`, and a pass that adds nothing exits the loop. -/
theorem follow_fixpoint_terminates (g : Grammar) (F : Nat) (st : FirstState)
    (Hgood : GoodMemo g st) (st1 : FirstState) (fs1 : FollowSets) (c1 : Bool)
    (Hpass1 : followPass g F st
        (Function.update emptyFollow g.start (insert END_MARKER (emptyFollow g.start)))
        g.prods false = some (st1, fs1, c1)) :
    ∃ N r, compute_follow g F N st emptyFollow = some r ∧
      (∀ A, Function.update emptyFollow g.start
          (insert END_MARKER (emptyFollow g.start)) A ⊆ r.2 A) ∧
      (∀ A, r.2 A ⊆ terminalsOf g ∪ {END_MARKER}) := by
  have hseedb : ∀ A, Function.update emptyFollow g.start
      (insert END_MARKER (emptyFollow g.start)) A ⊆ terminalsOf g ∪ {END_MARKER} := by
    intro A x hx
    by_cases hA : A = g.start
    · subst hA
      rw [Function.update_same] at hx
      rcases Finset.mem_insert.mp hx with h | h
      · exact Finset.mem_union_right _ (h ▸ Finset.mem_singleton_self _)
      · exact absurd h (by simp [emptyFollow])
    · rw [Function.update_noteq hA] at hx
      exact absurd hx (by simp [emptyFollow])
  have hg1 := followPass_good g F g.prods st _ false st1 fs1 c1 Hgood hseedb Hpass1
  cases c1 with
  | false =>
    refine ⟨1, (st1, fs1), ?_, ?_, hg1.2⟩
    · simp only [compute_follow, followLoop, Hpass1]
      rw [if_neg Bool.false_ne_true]
    · intro A
      exact followPass_mono g F g.prods st _ false st1 fs1 false Hpass1 A
  | true =>
    have Hpass : ∀ fs : FollowSets,
        ∃ fs' c, followPass g F st1 fs g.prods false = some (st1, fs', c) := by
      intro fs
      exact followPass_stable_any g F g.prods st _ false st1 fs1 true Hpass1 st1
        (MemoExt.refl st1) fs false
    obtain ⟨r, hr⟩ := followLoop_term_aux g F st1 hg1.1 Hpass
      (g.nts.toFinset.card * (terminalsOf g ∪ {END_MARKER}).card + 1) fs1 hg1.2 (by omega)
    have hcf : compute_follow g F
        (g.nts.toFinset.card * (terminalsOf g ∪ {END_MARKER}).card + 1 + 1) st
        emptyFollow = some r := by
      show followLoop g F _ st _ = some r
      rw [followLoop_succ, Hpass1]
      dsimp only
      rw [if_pos rfl]
      exact hr
    refine ⟨_, r, hcf, ?_, ?_⟩
    · intro A
      have hloop := hcf
      simp only [compute_follow] at hloop
      exact followLoop_mono g F _ st _ r hloop A
    · have hloop := hcf
      simp only [compute_follow] at hloop
      exact followLoop_good g F _ st _ r Hgood hseedb hloop

/-- C7 witness: on the trivial grammar the first pass succeeds from the
empty memo, and the loop terminates with bounded, grown FOLLOW sets. -/
theorem follow_fixpoint_terminates_witness :
    ∃ N r, compute_follow gTriv 9 N initFS emptyFollow = some r ∧
      (∀ A, r.2 A ⊆ terminalsOf gTriv ∪ {END_MARKER}) := by
  have hgood : GoodMemo gTriv initFS := by
    intro k v h
    simp [initFS, lookupA] at h
  have hs : (followPass gTriv 9 initFS
      (Function.update emptyFollow gTriv.start
        (insert END_MARKER (emptyFollow gTriv.start)))
      gTriv.prods false).isSome = true := by decide
  obtain ⟨t, ht⟩ := Option.isSome_iff_exists.mp hs
  obtain ⟨st1, fs1, c1⟩ := t
  obtain ⟨N, r, hr, _, hbound⟩ :=
    follow_fixpoint_terminates gTriv 9 initFS hgood st1 fs1 c1 ht
  exact ⟨N, r, hr, hbound⟩

end Claims5

end FF

namespace FF

section Claims6

theorem followLoop_last_pass (g : Grammar) (F : Nat) :
    ∀ (N : Nat) (st : FirstState) (fs : FollowSets) (st' : FirstState) (fs' : FollowSets),
      followLoop g F N st fs = some (st', fs') →
      ∃ stP fsP, followPass g F stP fsP g.prods false = some (st', fs', false)
  | 0, st, fs, st', fs' => by
    intro h
    exact Option.noConfusion h
  | Nat.succ N, st, fs, st', fs' => by
    intro h
    simp only [followLoop] at h
    cases hp : followPass g F st fs g.prods false with
    | none =>
      simp only [hp] at h
      exact Option.noConfusion h
    | some t =>
      obtain ⟨st1, fs1, c⟩ := t
      simp only [hp] at h
      cases c with
      | true =>
        rw [if_pos rfl] at h
        exact followLoop_last_pass g F N st1 fs1 st' fs' h
      | false =>
        rw [if_neg Bool.false_ne_true] at h
        simp only [Option.some.injEq, Prod.mk.injEq] at h
        refine ⟨st, fs, ?_⟩
        rw [← h.1, ← h.2]
        exact hp

theorem firstPhase_memo_ext (g : Grammar) (F : Nat) :
    ∀ (l : List Symbol) (st st' : FirstState), firstPhase g F st l = some st' →
      MemoExt st st'
  | [], st, st' => by
    intro h
    simp only [firstPhase, Option.some.injEq] at h
    rw [← h]
    exact MemoExt.refl st
  | nt :: rest, st, st' => by
    intro h
    simp only [firstPhase] at h
    cases hc : compute_first g F st nt with
    | none =>
      simp only [hc] at h
      exact Option.noConfusion h
    | some p =>
      obtain ⟨st1, v⟩ := p
      simp only [hc] at h
      exact ((first_memo_ext g F).1 st nt st1 v hc).trans
        (firstPhase_memo_ext g F rest st1 st' h)

theorem firstPhase_memoized (g : Grammar) (F : Nat) :
    ∀ (l : List Symbol) (st st' : FirstState), firstPhase g F st l = some st' →
      ∀ nt ∈ l, ∃ v, lookupA st'.first_sets nt = some v
  | [], st, st' => by
    intro _ nt hnt
    exact absurd hnt (by simp)
  | nt0 :: rest, st, st' => by
    intro h nt hnt
    simp only [firstPhase] at h
    cases hc : compute_first g F st nt0 with
    | none =>
      simp only [hc] at h
      exact Option.noConfusion h
    | some p =>
      obtain ⟨st1, v⟩ := p
      simp only [hc] at h
      rcases List.mem_cons.mp hnt with h1 | h1
      · subst h1
        exact ⟨v, firstPhase_memo_ext g F rest st1 st' h nt v
          (compute_first_memoizes g F st nt st1 v hc)⟩
      · exact firstPhase_memoized g F rest st1 st' h nt h1

theorem firstPhase_rerun (g : Grammar) (f : Nat) :
    ∀ (l : List Symbol) (st : FirstState),
      (∀ nt ∈ l, ∃ v, lookupA st.first_sets nt = some v) →
      firstPhase g (f + 1) st l = some st
  | [], st => by
    intro _
    rfl
  | nt :: rest, st => by
    intro h
    obtain ⟨v, hv⟩ := h nt (List.mem_cons_self _ _)
    have hhit := compute_first_memo_hit g f st nt v hv
    simp only [firstPhase, hhit]
    exact firstPhase_rerun g f rest st (fun x hx => h x (List.mem_cons_of_mem _ hx))

/-- C8: `calculate_all` is deterministic.  On a fresh engine the result is
literally the same expression (the embedding is pure); on the same engine
instance — with the memo `first_sets` populated and `follow_sets` at the
fixpoint — a second `calculate_all` returns exactly the same FirstSets and
FollowSets: every FIRST query is a memo hit, the seed is a no-op, and the
first pass reports no change. -/
theorem analysis_deterministic :
    (∀ (g : Grammar) (F N : Nat) (st : FirstState) (fs : FollowSets),
        calculate_all g F N st fs = calculate_all g F N st fs) ∧
    (∀ (g : Grammar) (F N : Nat) (st0 : FirstState) (fs0 : FollowSets)
        (st1 : FirstState) (fs1 : FollowSets),
        calculate_all g F N st0 fs0 = some (st1, fs1) →
        calculate_all g F N st1 fs1 = some (st1, fs1)) := by
  refine ⟨fun _ _ _ _ _ => rfl, ?_⟩
  intro g F N st0 fs0 st1 fs1 h
  simp only [calculate_all] at h
  cases hfp : firstPhase g F st0 g.nts with
  | none =>
    simp only [hfp] at h
    exact Option.noConfusion h
  | some stA =>
    simp only [hfp] at h
    simp only [compute_follow] at h
    have hext : MemoExt stA st1 := followLoop_memo_ext g F N stA _ (st1, fs1) h
    have hmem : ∀ nt ∈ g.nts, ∃ v, lookupA st1.first_sets nt = some v := by
      intro nt hnt
      obtain ⟨v, hv⟩ := firstPhase_memoized g F g.nts st0 stA hfp nt hnt
      exact ⟨v, hext nt v hv⟩
    have hstart : END_MARKER ∈ fs1 g.start := by
      apply followLoop_mono g F N stA _ (st1, fs1) h g.start
      rw [Function.update_same]
      exact Finset.mem_insert_self _ _
    obtain ⟨stP, fsP, hlast⟩ := followLoop_last_pass g F N stA _ st1 fs1 h
    have hfsP : fs1 = fsP :=
      (followPass_changed_false g F g.prods stP fsP false st1 fs1 hlast).2
    have hpass2 : followPass g F st1 fs1 g.prods false = some (st1, fs1, false) := by
      have hx := followPass_stable g F g.prods stP fsP false st1 fs1 false hlast st1
        (MemoExt.refl st1)
      rwa [← hfsP] at hx
    have hfp2 : firstPhase g F st1 g.nts = some st1 := by
      cases F with
      | zero =>
        cases hl : g.nts with
        | nil =>
          rfl
        | cons a rest =>
          rw [hl] at hfp
          exact Option.noConfusion hfp
      | succ f =>
        exact firstPhase_rerun g f g.nts st1 hmem
    have hseednoop : Function.update fs1 g.start (insert END_MARKER (fs1 g.start)) = fs1 := by
      rw [Finset.insert_eq_self.mpr hstart]
      exact Function.update_eq_self g.start fs1
    cases N with
    | zero => exact Option.noConfusion h
    | succ M =>
      simp only [calculate_all, hfp2]
      simp only [compute_follow, hseednoop]
      rw [followLoop_succ, hpass2]
      dsimp only
      rw [if_neg Bool.false_ne_true]

/-- C8 witness: a full analysis of the trivial grammar, re-run on the
resulting engine state, reproduces exactly the same result. -/
theorem analysis_deterministic_witness :
    ∃ p, calculate_all gTriv 9 5 initFS emptyFollow = some p ∧
      calculate_all gTriv 9 5 p.1 p.2 = some p := by
  have hs : (calculate_all gTriv 9 5 initFS emptyFollow).isSome = true := by decide
  obtain ⟨p, hp⟩ := Option.isSome_iff_exists.mp hs
  obtain ⟨st1, fs1⟩ := p
  exact ⟨(st1, fs1), hp,
    analysis_deterministic.2 gTriv 9 5 initFS emptyFollow st1 fs1 hp⟩

end Claims6

end FF
